import Mathlib

/-!
# Verification of the `sync_agent_rules` reconciliation engine

A shallow embedding, in Lean 4, of the core of `scripts/sync_agent_rules.py`:
the frontmatter parser and encoder, the generated-file marker, the rule
deduplicator, the skill-symlink reconciliation algorithm, the backup-before-
write primitives, and the mutation phases of the `init`, `add-rule` and
`clean` commands.  Python strings are modelled as `List Char`; Python dicts
(which preserve insertion order) as association lists; the filesystem as an
association list from path to file content.  Every definition is a direct
transcription of the corresponding Python function, with its source name.

Notes on fidelity of the string model:
* Python `\w` in `re` is Unicode-aware; the embedding uses the ASCII reading
  (`Char.isAlphanum` or underscore), which agrees on all ASCII inputs.
* Python `str.splitlines` also splits on rare control characters
  (`\v`, `\f`, ...); the embedding covers `\n`, `\r` and `\r\n`, which agrees
  on inputs free of those control characters.
-/

namespace SyncAgentRules

/-! ## Character and string primitives (Python string ops on `List Char`) -/

/-- Python whitespace as used by `str.strip` / `\s`, restricted to the
common characters (space, tab, newline, carriage return). -/
def pyWS (c : Char) : Bool :=
  c = ' ' || c = '\t' || c = '\n' || c = '\r'

/-- `str.lstrip()` with no argument: drop leading whitespace. -/
def lstripWS (l : List Char) : List Char := l.dropWhile pyWS

/-- `str.rstrip()` with no argument: drop trailing whitespace. -/
def rstripWS (l : List Char) : List Char := (l.reverse.dropWhile pyWS).reverse

/-- `str.strip()` with no argument. -/
def stripWS (l : List Char) : List Char := rstripWS (lstripWS l)

/-- `str.lstrip("\n")`: drop leading newline characters only. -/
def lstripNL (l : List Char) : List Char := l.dropWhile (· = '\n')

/-- A `\w` regex character, ASCII reading: letter, digit or underscore. -/
def isWordChar (c : Char) : Bool := c.isAlphanum || c = '_'

/-- `str.lower()`, character-wise. -/
def lowerChars (l : List Char) : List Char := l.map Char.toLower

/-- `haystack.find(needle)`: index of the first occurrence of `needle` in
`haystack`, or `none` (Python returns `-1`). -/
def findSub : List Char → List Char → Option Nat
  | hay, sub =>
    if sub.isPrefixOf hay then some 0
    else
      match hay with
      | [] => none
      | _ :: t => (findSub t sub).map (· + 1)

/-- `haystack.find(needle, start)`: first occurrence at index `≥ start`. -/
def findSubFrom (hay sub : List Char) (start : Nat) : Option Nat :=
  (findSub (hay.drop start) sub).map (· + start)

/-- Collapse the two-character boundary `\r\n` to `\n`, so the line splitter
below can treat every boundary as a single character. -/
def normalizeCRLF : List Char → List Char
  | [] => []
  | '\r' :: '\n' :: rest => '\n' :: normalizeCRLF rest
  | c :: rest => c :: normalizeCRLF rest

/-- The line accumulator of `splitlines`: split on the single-character
boundaries, no trailing empty line. -/
def splitlinesAux : List Char → List Char → List (List Char)
  | acc, [] => if acc.isEmpty then [] else [acc.reverse]
  | acc, c :: rest =>
    if c = '\n' || c = '\r' then acc.reverse :: splitlinesAux [] rest
    else splitlinesAux (c :: acc) rest

/-- `str.splitlines()` on the common line boundaries `\r\n`, `\r`, `\n`. -/
def splitlines (l : List Char) : List (List Char) :=
  splitlinesAux [] (normalizeCRLF l)

/-! ## Frontmatter values and metadata maps

Python frontmatter metadata is a `dict[str, Any]` whose values, as produced by
`parse_frontmatter`'s coercion, are always booleans or strings.  The embedding
gives the value a dedicated sum type and the dict an insertion-ordered
association list with Python-dict assignment semantics (`dictInsert`). -/

/-- A frontmatter value: Python `bool` or `str`. -/
inductive PyVal where
  | boolV : Bool → PyVal
  | strV : List Char → PyVal
deriving DecidableEq, Repr

/-- An insertion-ordered string-keyed map, as a Python `dict`. -/
abbrev PyDict := List (List Char × PyVal)

/-- Python `d[k] = v`: replace in place if the key exists, else append. -/
def dictInsert (d : PyDict) (k : List Char) (v : PyVal) : PyDict :=
  match d with
  | [] => [(k, v)]
  | (k', v') :: rest =>
    if k' = k then (k', v) :: rest else (k', v') :: dictInsert rest k v

/-- Python `k in d` for a dict modelled as an association list. -/
def dictHasKey (d : PyDict) (k : List Char) : Bool :=
  d.any (fun kv => kv.1 = k)

/-! ## Frontmatter parser and encoder (`parse_frontmatter`, `build_frontmatter`) -/

/-- The frontmatter delimiter `---` as characters. -/
def dashes : List Char := ['-', '-', '-']

/-- The literal `true` as characters. -/
def trueChars : List Char := ['t', 'r', 'u', 'e']

/-- The literal `false` as characters. -/
def falseChars : List Char := ['f', 'a', 'l', 's', 'e']

/-- The regex `^(\w+)\s*:\s*(.+)$` applied to a (stripped) line: the key is the
maximal leading run of word characters, then optional whitespace, a colon,
optional whitespace, and a non-empty remainder.  Greedy max-munch agrees with
the regex here because word characters, whitespace and `:` are disjoint. -/
def matchKV (line : List Char) : Option (List Char × List Char) :=
  let key := line.takeWhile isWordChar
  let rest := line.dropWhile isWordChar
  if key.isEmpty then none
  else
    match rest.dropWhile pyWS with
    | ':' :: rest2 =>
      let v := rest2.dropWhile pyWS
      if v.isEmpty then none else some (key, v)
    | _ => none

/-- Value coercion in `parse_frontmatter`: the literals `true`/`false`
(case-insensitive) become booleans; a value both starting and ending with a
double quote, or with a single quote, has those characters stripped;
everything else is the raw string. -/
def coerceVal (val : List Char) : PyVal :=
  if lowerChars val = trueChars then .boolV true
  else if lowerChars val = falseChars then .boolV false
  else if val.head? = some '"' && val.getLast? = some '"' then
    .strV ((val.drop 1).dropLast)
  else if val.head? = some '\'' && val.getLast? = some '\'' then
    .strV ((val.drop 1).dropLast)
  else .strV val

/-- One iteration of the parser's line loop: strip the line, skip it when it
is empty, a `#` comment, or fails the `key: value` regex; otherwise coerce and
assign into the metadata dict. -/
def procLine (meta : PyDict) (rawLine : List Char) : PyDict :=
  let line := stripWS rawLine
  if line.isEmpty then meta
  else if line.head? = some '#' then meta
  else
    match matchKV line with
    | none => meta
    | some (key, v) => dictInsert meta key (coerceVal (stripWS v))

/-- `parse_frontmatter(text)`: if `text` does not start with `---`, or the
closing `---` is never found, return `({}, text)`; otherwise strip the block
between the delimiters, process its lines, and return the remainder with
leading newlines removed. -/
def parse_frontmatter (text : List Char) : PyDict × List Char :=
  if ¬ (dashes.isPrefixOf text) then ([], text)
  else
    match findSubFrom text dashes 3 with
    | none => ([], text)
    | some e =>
      let fmBlock := stripWS ((text.take e).drop 3)
      let body := lstripNL (text.drop (e + 3))
      ((splitlines fmBlock).foldl procLine [], body)

/-- `build_frontmatter`'s quoting test: the string contains a space, colon or
double quote. -/
def needsQuote (v : List Char) : Bool :=
  v.any (fun c => c = ' ' || c = ':' || c = '"')

/-- One `key: value` line of `build_frontmatter`.  (The Python fallback branch
for values that are neither `bool` nor `str` is unreachable in the typed
model.) -/
def buildFMLine (k : List Char) (v : PyVal) : List Char :=
  match v with
  | .boolV true => k ++ ':' :: ' ' :: trueChars
  | .boolV false => k ++ ':' :: ' ' :: falseChars
  | .strV s =>
    if needsQuote s then k ++ ':' :: ' ' :: '"' :: s ++ ['"']
    else k ++ ':' :: ' ' :: s

/-- `"\n".join(lines)`. -/
def joinNL : List (List Char) → List Char
  | [] => []
  | [l] => l
  | l :: ls => l ++ '\n' :: joinNL ls

/-- `build_frontmatter(meta)`: the delimiter, one line per key in insertion
order, and the closing delimiter, newline-joined (no trailing newline). -/
def build_frontmatter (m : PyDict) : List Char :=
  joinNL (dashes :: (m.map fun kv => buildFMLine kv.1 kv.2) ++ [dashes])

/-! ## Generated-file marker -/

/-- The sentinel first line of every engine-written artifact. -/
def GENERATED_HEADER : List Char :=
  ("# Generated from ~/.ai-agent/ -- do not edit directly").data

/-- `is_generated_file(content)`: after stripping leading whitespace, does the
text start with the sentinel line? -/
def is_generated_file (content : List Char) : Bool :=
  GENERATED_HEADER.isPrefixOf (lstripWS content)

/-- `generated_header()`: the sentinel line, the regenerate hint and the
last-synced line, with the timestamp as a parameter. -/
def generated_header (ts : List Char) : List Char :=
  GENERATED_HEADER ++ '\n' ::
    ("# Run: ~/.ai-agent/scripts/sync_agent_rules.py sync").data ++ '\n' ::
    ("# Last synced: ").data ++ ts ++ ['\n']

/-! ## Safety conditions for frontmatter round-tripping

The encoder/parser pair is not a bijection on arbitrary strings; these
predicates delimit the inputs on which the round trip holds. -/

/-- No occurrence of the delimiter `---` anywhere in the string. -/
def noTripleB : List Char → Bool
  | [] => true
  | c :: rest => !(dashes.isPrefixOf (c :: rest)) && noTripleB rest

/-- Printable ASCII (space through tilde). -/
def printableChar (c : Char) : Bool := ' ' ≤ c && c ≤ '~'

/-- A key the parser's `^(\w+)` regex can recover: non-empty, word
characters only. -/
@[reducible] def safeKey (k : List Char) : Prop := k ≠ [] ∧ ∀ c ∈ k, isWordChar c = true

/-- A string value the encoder/parser pair round-trips: non-empty printable
ASCII, not a boolean literal (case-insensitively), no embedded `---`, and not
an unquoted value that both starts and ends with a single quote. -/
@[reducible] def safeStr (v : List Char) : Prop :=
  v ≠ [] ∧ (∀ c ∈ v, printableChar c = true) ∧
  lowerChars v ≠ trueChars ∧ lowerChars v ≠ falseChars ∧
  noTripleB v = true ∧
  ¬ (needsQuote v = false ∧ v.head? = some '\'' ∧ v.getLast? = some '\'')

/-- A round-trippable value: any boolean, or a safe string. -/
def safeVal : PyVal → Prop
  | .boolV _ => True
  | .strV v => safeStr v

/-- Safety of a value is decidable. -/
instance (v : PyVal) : Decidable (safeVal v) :=
  match v with
  | .boolV _ => .isTrue trivial
  | .strV s => inferInstanceAs (Decidable (safeStr s))

/-- The raw value text the encoder emits after `"key: "`. -/
def encodedVal : PyVal → List Char
  | .boolV true => trueChars
  | .boolV false => falseChars
  | .strV s => if needsQuote s then '"' :: s ++ ['"'] else s

/-- A round-trippable metadata map: distinct safe keys, safe values. -/
@[reducible] def safeMeta (m : PyDict) : Prop :=
  (m.map Prod.fst).Nodup ∧ ∀ kv ∈ m, safeKey kv.1 ∧ safeVal kv.2

/-- A value whose encoded line cannot contain the `---` delimiter (the only
condition needed for the generated-file skip property, claim C8). -/
def delimFreeVal : PyVal → Prop
  | .boolV _ => True
  | .strV v => noTripleB v = true

/-- Delimiter-freeness of a value is decidable. -/
instance (v : PyVal) : Decidable (delimFreeVal v) :=
  match v with
  | .boolV _ => .isTrue trivial
  | .strV s => inferInstanceAs (Decidable (noTripleB s = true))


/-! ## Deduplicator (`deduplicate_rules`)

The similarity ratio (`difflib.SequenceMatcher(...).ratio()`) is an external
algorithm; per the spec's design note it is "not load-bearing as long as
identical strings yield 1.0 ... and the 0.8 threshold is preserved", so the
embedding takes it as a parameter `ratio`.  The interactive `confirm` prompt
is modelled as an oracle indexed by how many prompts have been shown. -/

/-- A transient imported rule (`ImportedRule` dataclass). -/
structure ImportedRule where
  id : String
  content : String
  source : String
  cursor_meta : Option PyDict := none
deriving DecidableEq, Repr

/-- `seen[id]` lookup in the deduplicator's dict. -/
def lookupSeen : List (String × ImportedRule) → String → Option ImportedRule
  | [], _ => none
  | (k, r) :: rest, i => if k = i then some r else lookupSeen rest i

/-- `seen[id] = rule` assignment (Python dict semantics). -/
def insertSeen : List (String × ImportedRule) → String → ImportedRule →
    List (String × ImportedRule)
  | [], i, r => [(i, r)]
  | (k, r') :: rest, i, r =>
    if k = i then (k, r) :: rest else (k, r') :: insertSeen rest i r

/-- The deduplicator's loop state: the `seen` dict, the `result` list, and
the number of interactive prompts shown so far. -/
abbrev DedupSt := List (String × ImportedRule) × List ImportedRule × Nat

/-- One iteration of `deduplicate_rules`'s loop.  An unseen id is recorded
and appended.  A seen id with similarity ratio `> 0.8` is discarded.  Below
the threshold: with auto-confirm (`args.yes`) the newcomer is discarded after
a warning; interactively, a `confirm` answer of `False` replaces the kept
record (removing it from the result first and appending the newcomer). -/
def dedupStep (ratio : String → String → ℚ) (yes : Bool) (oracle : Nat → Bool)
    (st : DedupSt) (rule : ImportedRule) : DedupSt :=
  let (seen, result, n) := st
  match lookupSeen seen rule.id with
  | some existing =>
    if ratio existing.content rule.content > 4/5 then (seen, result, n)
    else if yes then (seen, result, n)
    else if oracle n then (seen, result, n + 1)
    else (insertSeen seen rule.id rule,
          (result.filter fun r => r.id ≠ rule.id) ++ [rule], n + 1)
  | none => (insertSeen seen rule.id rule, result ++ [rule], n)

/-- `deduplicate_rules(all_rules, args)`. -/
def deduplicate_rules (ratio : String → String → ℚ) (yes : Bool)
    (oracle : Nat → Bool) (all_rules : List ImportedRule) : List ImportedRule :=
  (all_rules.foldl (dedupStep ratio yes oracle) ([], [], 0)).2.1

/-- Specification-side description of first-occurrence deduplication: keep
each rule whose id has not appeared before, in input order. -/
def firstOccurrences : List ImportedRule → List String → List ImportedRule
  | [], _ => []
  | r :: rest, ids =>
    if r.id ∈ ids then firstOccurrences rest ids
    else r :: firstOccurrences rest (r.id :: ids)

/-! ## Skill symlink reconciliation (`sync_skills`)

The filesystem slice this algorithm sees: a target directory of named
entries, each either a symlink (whose `os.readlink`+`resolve` result is
abstracted to "the canonical skill directory of name `n`" or "some path
outside the canonical store") or a real file/directory; and the canonical
skill-name set.  Path resolution has no symlink chains in the model, matching
a store whose skill directories are real directories. -/

/-- What a symlink resolves to. -/
inductive LinkDest where
  | skill : String → LinkDest
  | outside : String → LinkDest
deriving DecidableEq, Repr

/-- A directory entry: a symlink, or a real (non-symlink) file/directory. -/
inductive DirEntry where
  | symlink : LinkDest → DirEntry
  | real : DirEntry
deriving DecidableEq, Repr

/-- A directory: named entries in enumeration order. -/
abbrev TargetDir := List (String × DirEntry)

/-- A filesystem mutation performed by `sync_skills`. -/
inductive SkillOp where
  | removeLink : String → SkillOp
  | createLink : String → SkillOp
deriving DecidableEq, Repr

/-- The prune pass keeps an entry unless it is a symlink resolving under the
canonical skills store whose name left the canonical set or which resolves to
a different canonical directory than its own name's. -/
def pruneKeep (canonical : List String) (e : String × DirEntry) : Bool :=
  match e.2 with
  | .symlink (.skill n) => if e.1 ∈ canonical then n = e.1 else false
  | _ => true

/-- Pass 1 of `sync_skills`: remove stale symlinks pointing into the
canonical store, in enumeration order. -/
def prunePass (canonical : List String) : TargetDir → TargetDir × List SkillOp
  | [] => ([], [])
  | e :: rest =>
    let (d, ops) := prunePass canonical rest
    if pruneKeep canonical e then (e :: d, ops)
    else (d, .removeLink e.1 :: ops)

/-- Directory lookup by name (`link.exists() or link.is_symlink()` plus the
subsequent inspection). -/
def lookupEntry : TargetDir → String → Option DirEntry
  | [], _ => none
  | (k, e) :: rest, n => if k = n then some e else lookupEntry rest n

/-- Replace the entry of an existing name. -/
def replaceEntry : TargetDir → String → DirEntry → TargetDir
  | [], _, _ => []
  | (k, e') :: rest, n, e =>
    if k = n then (k, e) :: rest else (k, e') :: replaceEntry rest n e

/-- One iteration of pass 2 for a canonical skill name: a correct symlink is
kept; a wrong symlink is removed and re-created; a real entry is preserved;
a missing entry gets a fresh symlink. -/
def createStep (dir : TargetDir) (name : String) : TargetDir × List SkillOp :=
  match lookupEntry dir name with
  | some (.symlink d) =>
    if d = .skill name then (dir, [])
    else (replaceEntry dir name (.symlink (.skill name)),
          [.removeLink name, .createLink name])
  | some .real => (dir, [])
  | none => (dir ++ [(name, .symlink (.skill name))], [.createLink name])

/-- Pass 2 of `sync_skills`: walk the canonical names (the Python iterates
`sorted(canonical_skills)`; the model takes that iteration order as the list
order) threading the directory state. -/
def createPass (canonical : List String) (dir : TargetDir) :
    TargetDir × List SkillOp :=
  canonical.foldl
    (fun st name =>
      let r := createStep st.1 name
      (r.1, st.2 ++ r.2))
    (dir, [])

/-- `sync_skills(target_dir, args)` without dry-run: prune then create,
returning the final directory and the mutations in order. -/
def sync_skills (canonical : List String) (dir : TargetDir) :
    TargetDir × List SkillOp :=
  let p := prunePass canonical dir
  let c := createPass canonical p.1
  (c.1, p.2 ++ c.2)

/-! ## Generator artifacts and importer skip checks -/

/-- The per-rule `.mdc` artifact `gen_cursor` writes:
`f"{fm}\n\n{header}\n{content}"` with `fm = build_frontmatter(meta) if meta
else "---\n---"`. -/
def gen_cursor_file (meta : PyDict) (ts content : List Char) : List Char :=
  let fm := if meta.isEmpty then dashes ++ '\n' :: dashes else build_frontmatter meta
  fm ++ '\n' :: '\n' :: generated_header ts ++ '\n' :: content

/-- `import_cursor`'s generated-file skip test for one `.mdc` file: parse the
frontmatter and check the body for the sentinel. -/
def import_cursor_skips (text : List Char) : Bool :=
  is_generated_file (parse_frontmatter text).2

/-- The parts list built by `gen_codex` before the `"\n".join`. -/
def codexParts : List (String × List Char) → List (List Char)
  | [] => []
  | r :: rest => (("## Rule: ").data ++ r.1.data ++ ['\n']) :: r.2 :: [] :: codexParts rest

/-- The single `model-instructions.md` artifact `gen_codex` writes. -/
def gen_codex_content (ts : List Char) (rules : List (String × List Char)) :
    List Char :=
  joinNL (generated_header ts :: [] :: codexParts rules)

/-- The parts list built by `_gen_concat_file`. -/
def concatParts : List (List Char) → List (List Char)
  | [] => []
  | b :: rest => b :: [] :: concatParts rest

/-- The concatenated artifact `_gen_concat_file` writes (claude, gemini,
kiro). -/
def gen_concat_content (ts : List Char) (bodies : List (List Char)) : List Char :=
  joinNL (generated_header ts :: [] :: concatParts bodies)

/-- One numbered line of `gen_agents_md`: `f"{i}. **{id}** -- {summary}"`. -/
def agentsLine (i : Nat) (rid summary : List Char) : List Char :=
  (toString i).data ++ ('.' :: ' ' :: '*' :: '*' :: rid) ++
    ('*' :: '*' :: ' ' :: '-' :: '-' :: ' ' :: summary)

/-- The shared AGENTS.md content `gen_agents_md` writes to every resolved
path: sentinel block, header, optional preamble, numbered rule lines. -/
def gen_agents_md_content (ts header preamble : List Char)
    (entries : List (List Char × List Char)) : List Char :=
  joinNL (generated_header ts :: header :: [] ::
    ((if preamble.isEmpty then [] else [preamble, []]) ++
     (entries.enum.map fun p => agentsLine (p.1 + 1) p.2.1 p.2.2) ++ [[]]))

/-- `import_codex` / `_import_single_file` / `import_kiro` skip test: the
whole file text is checked for the sentinel. -/
def single_file_import_skips (text : List Char) : Bool :=
  is_generated_file text

/-! ## Filesystem, backup sessions, and the mutating primitives

The filesystem is a map from path to file data; the manifest file's JSON is
abstracted as structured data (any injective serialization).  Symlinks do not
appear in this slice of the model (`write_file`/`remove_file`/`backup_file`
are only ever applied to regular files by the engine; `sync_skills` above
models the symlink-touching code).  A backup session is the set of files
copied into it; `sessions` counts session directories created, each of which
writes a `meta.json` marker — a filesystem mutation under the backups
root. -/

/-- A manifest rule record (`RuleEntry` dataclass / manifest `rules` array). -/
structure RuleEntry where
  id : String
  file : String
  imported_from : String
  cursor : Option PyDict := none
  exclude : List String := []
deriving DecidableEq, Repr

/-- File contents: plain text, or the manifest's structured record. -/
inductive FileData where
  | text : List Char → FileData
  | manifestData : List RuleEntry → FileData
deriving DecidableEq, Repr

/-- Path-keyed file map. -/
abbrev FileMap := List (String × FileData)

/-- Read a path. -/
def fsGet : FileMap → String → Option FileData
  | [], _ => none
  | (q, d) :: rest, p => if q = p then some d else fsGet rest p

/-- Write a path (create or overwrite). -/
def fsSet : FileMap → String → FileData → FileMap
  | [], p, d => [(p, d)]
  | (q, d') :: rest, p, d =>
    if q = p then (q, d) :: rest else (q, d') :: fsSet rest p d

/-- `unlink(missing_ok=True)`. -/
def fsDel (fs : FileMap) (p : String) : FileMap :=
  fs.filter fun q => q.1 ≠ p

/-- The relevant command options of the `argparse` namespace. -/
structure Args where
  dry_run : Bool := false
  diff : Bool := false
  yes : Bool := true
deriving DecidableEq, Repr

/-- The filesystem state: files, the active backup session's file mirror
(`None` when no session is active), and the number of session directories
created so far. -/
structure Sys where
  files : FileMap
  backup : Option FileMap
  sessions : Nat
deriving DecidableEq, Repr

/-- `init_backup(command)`: create a session directory, write its
`meta.json`, and make it the process-wide active session. -/
def init_backup (s : Sys) : Sys :=
  { s with backup := some [], sessions := s.sessions + 1 }

/-- `backup_file(path, args)`: skipped for missing paths, with no active
session, and under dry-run; otherwise copy the current content into the
session mirror (overwriting any earlier copy of the same path). -/
def backup_file (p : String) (args : Args) (s : Sys) : Sys :=
  match fsGet s.files p with
  | none => s
  | some d =>
    match s.backup with
    | none => s
    | some b =>
      if args.dry_run then s
      else { s with backup := some (fsSet b p d) }

/-- `write_file(path, content, args)`: dry-run logs only; with `--diff` and
an identical existing file the write is skipped entirely; otherwise an
existing destination is backed up and then overwritten. -/
def write_file (p : String) (d : FileData) (args : Args) (s : Sys) : Sys :=
  if args.dry_run then s
  else if args.diff ∧ fsGet s.files p = some d then s
  else
    let s1 := if (fsGet s.files p).isSome then backup_file p args s else s
    { s1 with files := fsSet s1.files p d }

/-- `remove_file(path, args)`: dry-run logs only; an existing (non-symlink)
path is backed up and then unlinked. -/
def remove_file (p : String) (args : Args) (s : Sys) : Sys :=
  if args.dry_run then s
  else
    let s1 := if (fsGet s.files p).isSome then backup_file p args s else s
    { s1 with files := fsDel s1.files p }

/-- The manifest path. -/
def MANIFEST_PATH : String := ".ai-agent/manifest.json"

/-- The canonical rules directory prefix. -/
def rulesDirSlash : String := ".ai-agent/rules/"

/-- The canonical file path of a rule id. -/
def rulePath (rid : String) : String := rulesDirSlash ++ rid ++ ".md"

/-- `read_manifest()`: `None` models the `NotInitialized` fatal exit. -/
def read_manifest (s : Sys) : Option (List RuleEntry) :=
  match fsGet s.files MANIFEST_PATH with
  | some (.manifestData m) => some m
  | _ => none

/-- `write_manifest(data, args)`: a backed-up `write_file` of the manifest
record (the `updated` date stamp is not modelled). -/
def write_manifest (m : List RuleEntry) (args : Args) (s : Sys) : Sys :=
  write_file MANIFEST_PATH (.manifestData m) args s

/-- The engine's fatal error taxonomy. -/
inductive CmdError where
  | notInitialized
  | unknownConsumer
  | unsupportedKey
  | duplicateRuleId
  | ruleNotFound
deriving DecidableEq, Repr

/-- `cmd_add_rule(args)` up to the manifest write (the trailing `cmd_sync`
call on the success path regenerates consumer artifacts and is modelled
separately).  Faithful order: the backup session is initialized first, then
the manifest is read, then the duplicate check runs; the canonical rule file
is written with a bare `write_text` (no backup), the manifest through
`write_manifest`. -/
def cmd_add_rule (args : Args) (rid : String) (content : List Char)
    (descr : Option (List Char)) (alwaysApply : Bool) (s : Sys) :
    Sys × Option CmdError :=
  let s := init_backup s
  match read_manifest s with
  | none => (s, some .notInitialized)
  | some m =>
    if (m.any fun r => r.id = rid) ∨ (fsGet s.files (rulePath rid)).isSome then
      (s, some .duplicateRuleId)
    else if args.dry_run then (s, none)
    else
      let s1 := { s with files := fsSet s.files (rulePath rid) (.text content) }
      let cm : PyDict :=
        [(("alwaysApply").data, .boolV alwaysApply)] ++
          (match descr with
           | some d => [(("description").data, .strV d)]
           | none => [])
      let entry : RuleEntry :=
        { id := rid, file := rid ++ ".md", imported_from := "manual",
          cursor := some cm }
      (write_manifest (m ++ [entry]) args s1, none)

/-- Whether a path lies under the canonical rules directory. -/
def underRules (p : String) : Bool := rulesDirSlash.data.isPrefixOf p.data

/-- `backup_directory(RULES_DIR, args)`: mirror every file under the rules
directory into the active session; skipped under dry-run. -/
def backup_directory_rules (args : Args) (s : Sys) : Sys :=
  match s.backup with
  | none => s
  | some b =>
    if args.dry_run then s
    else
      let mirrored := (s.files.filter fun q => underRules q.1).foldl
        (fun acc q => fsSet acc q.1 q.2) b
      { s with backup := some mirrored }

/-- The write phase of `cmd_init` (after source scanning and selection):
`init_backup`, then — if a canonical rules directory exists — a dry-run-
guarded `backup_directory` followed by an *unguarded* `shutil.rmtree`; then
an unguarded `write_text` of each selected rule file; then an unguarded
`write_text` of the manifest.  (`import_skills` is dry-run-guarded and omitted
here; the trailing `cmd_sync` call routes through `write_file`.) -/
def cmd_init_write_phase (args : Args) (src : String)
    (newRules : List (String × List Char)) (s : Sys) : Sys :=
  let s := init_backup s
  let s :=
    if s.files.any fun q => underRules q.1 then
      let s1 := backup_directory_rules args s
      { s1 with files := s1.files.filter fun q => !(underRules q.1) }
    else s
  let written := newRules.foldl
    (fun fs r => fsSet fs (rulePath r.1) (.text (r.2 ++ ['\n']))) s.files
  let s := { s with files := written }
  let entries : List RuleEntry :=
    newRules.map fun r =>
      { id := r.1, file := r.1 ++ ".md", imported_from := src }
  { s with files := fsSet s.files MANIFEST_PATH (.manifestData entries) }

/-- The deletion phase of `cmd_clean`: every discovered generated file and
skill symlink is removed by a bare `unlink(missing_ok=True)` — not through
`remove_file` — so nothing is backed up; dry-run only logs. -/
def cmd_clean_delete (args : Args) (paths : List String) (s : Sys) : Sys :=
  if args.dry_run then s
  else { s with files := paths.foldl fsDel s.files }

/-! ## Stale-file cleanup and clean-command discovery -/

/-- The stale-cleanup sweep at the end of `gen_cursor`: files from the
directory enumeration (`rules_dir.glob("*.mdc")`, in the enumeration order
the OS returns — the listing is a parameter) whose stem is not an active rule
id and whose post-frontmatter body carries the sentinel are removed, in
enumeration order. -/
def gen_cursor_stale_removals (ruleIds : List String)
    (listing : List (String × List Char)) : List (String × List Char) :=
  listing.filter fun f =>
    !(ruleIds.contains f.1) && is_generated_file (parse_frontmatter f.2).2

/-- `_find_generated_rules` for the per-file (cursor) consumer: files of the
sorted directory listing whose post-frontmatter body carries the sentinel. -/
def find_generated_per_file (listing : List (String × List Char)) :
    List (String × List Char) :=
  listing.filter fun f => is_generated_file (parse_frontmatter f.2).2

/-- Specification-side: a skill name is settled in a target directory when it
holds either the correct canonical symlink or a preserved real entry. -/
def skillSettled (dir : TargetDir) (name : String) : Prop :=
  lookupEntry dir name = some (.symlink (.skill name)) ∨
  lookupEntry dir name = some .real

/-- Lexicographic order on character lists (Python string comparison, as
used by `sorted`). -/
def lexLe : List Char → List Char → Bool
  | [], _ => true
  | _ :: _, [] => false
  | a :: as, b :: bs => if a < b then true else if a = b then lexLe as bs else false

/-- Specification-side: a name sequence is in ascending order. -/
def namesSorted : List String → Bool
  | [] => true
  | [_] => true
  | a :: b :: rest => lexLe a.data b.data && namesSorted (b :: rest)

/-! # Theorems -/

/-- Claim C1, counterexample.  A concrete state: an active (empty) backup
session, one generated consumer artifact on disk.  The clean command's
deletion phase removes the file, yet the active session still contains no
backup of it — refuting "the clean command's deletions back up the
pre-mutation state of the affected path into the active backup session
before changing it". -/
theorem clean_delete_no_backup_counterexample :
    (cmd_clean_delete ⟨false, false, true⟩ [".cursor/rules/a.mdc"]
        ⟨[(".cursor/rules/a.mdc", .text ['x'])], some [], 1⟩).files = [] ∧
    (cmd_clean_delete ⟨false, false, true⟩ [".cursor/rules/a.mdc"]
        ⟨[(".cursor/rules/a.mdc", .text ['x'])], some [], 1⟩).backup = some [] := by
  decide

/-- Claim C1, amended: `write_file` and `remove_file` back up the affected
path's pre-mutation content into the active session before mutating (each
mutation re-copies, so a later backup of the same path in one session
overwrites the earlier one — not "exactly once per session"); the clean
command's deletions never touch the backup at all. -/
theorem backup_before_write_and_remove (p : String) (d d₀ : FileData)
    (args : Args) (s : Sys) (b : FileMap) (paths : List String)
    (hb : s.backup = some b) (hdry : args.dry_run = false)
    (h0 : fsGet s.files p = some d₀) (hdiff : args.diff = true → d ≠ d₀) :
    write_file p d args s
      = { s with files := fsSet s.files p d, backup := some (fsSet b p d₀) } ∧
    remove_file p args s
      = { s with files := fsDel s.files p, backup := some (fsSet b p d₀) } ∧
    (cmd_clean_delete args paths s).backup = s.backup := by
  have hwf : backup_file p args s = { s with backup := some (fsSet b p d₀) } := by
    unfold backup_file
    rw [h0, hb, hdry]
    simp
  refine ⟨?_, ?_, ?_⟩
  · unfold write_file
    rw [hdry, h0]
    simp only [Bool.false_eq_true, if_false, Option.isSome_some, if_true]
    have hcond : ¬ (args.diff = true ∧ (some d₀ : Option FileData) = some d) := by
      rintro ⟨hd, he⟩
      exact hdiff hd (Option.some_injective _ he).symm
    rw [if_neg hcond, hwf]
  · unfold remove_file
    rw [hdry, h0]
    simp only [Bool.false_eq_true, if_false, Option.isSome_some, if_true]
    rw [hwf]
  · unfold cmd_clean_delete
    split <;> rfl

/-- Claim C1, witness for the amended theorem at a concrete input. -/
theorem backup_before_write_and_remove_witness :
    write_file "m" (.text ['n']) ⟨false, false, true⟩
        ⟨[("m", .text ['o'])], some [], 1⟩
      = ⟨[("m", .text ['n'])], some [("m", .text ['o'])], 1⟩ ∧
    remove_file "m" ⟨false, false, true⟩ ⟨[("m", .text ['o'])], some [], 1⟩
      = ⟨[], some [("m", .text ['o'])], 1⟩ ∧
    (cmd_clean_delete ⟨false, false, true⟩ ["m"]
        ⟨[("m", .text ['o'])], some [], 1⟩).backup = some [] := by
  have h := backup_before_write_and_remove "m" (.text ['n']) (.text ['o'])
    ⟨false, false, true⟩ ⟨[("m", .text ['o'])], some [], 1⟩ [] ["m"]
    rfl rfl (by decide) (by decide)
  refine ⟨?_, ?_, ?_⟩
  · rw [h.1]; decide
  · rw [h.2.1]; decide
  · rw [h.2.2]

/-- Claim C2: the code is wrong.  With dry-run enabled, the write phase of
`cmd_init` still creates a backup session directory, deletes the existing
canonical rules directory (`shutil.rmtree` is not dry-run-guarded — and the
preceding `backup_directory` *is*, so the deleted content is not even backed
up), writes the selected rule files and rewrites the manifest.  Evaluated
here at a concrete failing input: the pre-existing `old-rule` file is gone
and the manifest has been replaced, under `--dry-run`. -/
theorem init_dry_run_mutates :
    cmd_init_write_phase ⟨true, false, true⟩ "cursor" [("new-rule", ['c'])]
        ⟨[(rulePath "old-rule", .text ['x'])], none, 0⟩
      = ⟨[(rulePath "new-rule", .text ['c', '\n']),
          (MANIFEST_PATH,
           .manifestData [⟨"new-rule", "new-rule.md", "cursor", none, []⟩])],
         some [], 1⟩ := by
  decide

/-- Claim C3, counterexample.  `cmd_add_rule` calls `init_backup` before
reading the manifest and running the duplicate check, so on a duplicate id
the command exits with `DuplicateRuleId` *after* a filesystem mutation (the
new session directory and its `meta.json`): the post-error state differs
from the pre-command state. -/
theorem add_rule_mutation_before_check_counterexample :
    cmd_add_rule ⟨false, false, true⟩ "r" ['c'] none true
        ⟨[(MANIFEST_PATH, .manifestData [⟨"r", "r.md", "manual", none, []⟩])],
         none, 0⟩
      = (⟨[(MANIFEST_PATH, .manifestData [⟨"r", "r.md", "manual", none, []⟩])],
          some [], 1⟩,
         some .duplicateRuleId) := by
  decide

/-- Claim C3, amended: `add-rule` with a duplicate id (in the manifest or on
disk) fails with `DuplicateRuleId` leaving the manifest, the canonical rule
files and all consumer files unchanged; the only filesystem effect preceding
the check is the creation of the backup session (its directory and
`meta.json`). -/
theorem add_rule_duplicate_no_partial_write (args : Args) (rid : String)
    (content : List Char) (descr : Option (List Char)) (alwaysApply : Bool)
    (s : Sys) (m : List RuleEntry)
    (hm : read_manifest s = some m)
    (hdup : (m.any fun r => r.id = rid) ∨ (fsGet s.files (rulePath rid)).isSome) :
    cmd_add_rule args rid content descr alwaysApply s
      = (init_backup s, some .duplicateRuleId) ∧
    (cmd_add_rule args rid content descr alwaysApply s).1.files = s.files := by
  have hm' : read_manifest (init_backup s) = some m := hm
  have hfiles : (init_backup s).files = s.files := rfl
  have key : cmd_add_rule args rid content descr alwaysApply s
      = (init_backup s, some .duplicateRuleId) := by
    unfold cmd_add_rule
    simp only [hm', hfiles]
    rw [if_pos hdup]
  refine ⟨key, ?_⟩
  rw [key]
  exact hfiles

/-- Claim C3, witness for the amended theorem at a concrete input. -/
theorem add_rule_duplicate_no_partial_write_witness :
    cmd_add_rule ⟨false, false, true⟩ "dup" ['c'] none true
        ⟨[(MANIFEST_PATH, .manifestData [⟨"dup", "dup.md", "test", none, []⟩])],
         none, 4⟩
      = (⟨[(MANIFEST_PATH, .manifestData [⟨"dup", "dup.md", "test", none, []⟩])],
          some [], 5⟩,
         some .duplicateRuleId) := by
  have h := add_rule_duplicate_no_partial_write ⟨false, false, true⟩ "dup" ['c']
    none true
    ⟨[(MANIFEST_PATH, .manifestData [⟨"dup", "dup.md", "test", none, []⟩])],
     none, 4⟩
    [⟨"dup", "dup.md", "test", none, []⟩] (by decide) (by decide)
  exact h.1

/-- Inserting into the `seen` dict makes exactly the inserted key (newly)
present. -/
theorem lookupSeen_insertSeen_isSome (seen : List (String × ImportedRule))
    (i j : String) (r : ImportedRule) :
    (lookupSeen (insertSeen seen i r) j).isSome
      ↔ j = i ∨ (lookupSeen seen j).isSome := by
  induction seen with
  | nil =>
    simp only [insertSeen, lookupSeen]
    by_cases h : i = j <;> simp [h, eq_comm]
  | cons kv rest ih =>
    obtain ⟨k, r'⟩ := kv
    simp only [insertSeen]
    by_cases hk : k = i
    · subst hk
      simp only [if_pos rfl, lookupSeen]
      by_cases hj : k = j
      · subst hj; simp
      · simp [hj, Ne.symm hj]
    · rw [if_neg hk]
      simp only [lookupSeen]
      by_cases hj : k = j
      · subst hj; simp [Ne.symm hk]
      · simp only [if_neg hj]
        exact ih

/-- With auto-confirm, the deduplication fold keeps exactly the first
occurrence of each id, independently of the similarity ratio and of the
prompt oracle; generalized over the loop state. -/
theorem dedup_yes_go (ratio : String → String → ℚ) (oracle : Nat → Bool)
    (rules : List ImportedRule) :
    ∀ (seen : List (String × ImportedRule)) (result : List ImportedRule)
      (n : Nat) (ids : List String),
      (∀ i, (lookupSeen seen i).isSome ↔ i ∈ ids) →
      (rules.foldl (dedupStep ratio true oracle) (seen, result, n)).2.1
        = result ++ firstOccurrences rules ids := by
  induction rules with
  | nil => intro seen result n ids _; simp [firstOccurrences]
  | cons r rest ih =>
    intro seen result n ids hinv
    rw [List.foldl_cons]
    cases h : lookupSeen seen r.id with
    | some e =>
      have hmem : r.id ∈ ids := (hinv r.id).mp (by rw [h]; rfl)
      have hstep : dedupStep ratio true oracle (seen, result, n) r
          = (seen, result, n) := by
        simp only [dedupStep, h]
        split <;> rfl
      rw [hstep, ih seen result n ids hinv]
      simp [firstOccurrences, hmem]
    | none =>
      have hmem : r.id ∉ ids := by
        rw [← hinv r.id, h]
        simp
      have hstep : dedupStep ratio true oracle (seen, result, n) r
          = (insertSeen seen r.id r, result ++ [r], n) := by
        simp only [dedupStep, h]
      rw [hstep,
        ih (insertSeen seen r.id r) (result ++ [r]) n (r.id :: ids)
          (by
            intro i
            rw [lookupSeen_insertSeen_isSome, hinv i, List.mem_cons])]
      simp [firstOccurrences, hmem]

/-- Claim C4: with auto-confirm the deduplicator returns exactly the
first-seen record of each id in first-occurrence order — independently of
the similarity ratio (so in particular a later identical record is
discarded) and of the prompt oracle (so no prompt is consulted and no error
raised below the threshold); and in any mode, a later record whose ratio
against the kept record exceeds 0.8 is discarded without touching the
state. -/
theorem dedup_first_occurrence_auto_confirm
    (ratio : String → String → ℚ) (yes : Bool) (oracle : Nat → Bool)
    (rules : List ImportedRule) (seen : List (String × ImportedRule))
    (result : List ImportedRule) (n : Nat) (rule existing : ImportedRule) :
    deduplicate_rules ratio true oracle rules = firstOccurrences rules [] ∧
    (lookupSeen seen rule.id = some existing →
      ratio existing.content rule.content > 4/5 →
      dedupStep ratio yes oracle (seen, result, n) rule = (seen, result, n)) := by
  constructor
  · unfold deduplicate_rules
    rw [dedup_yes_go ratio oracle rules [] [] 0 [] (by intro i; simp [lookupSeen])]
    simp
  · intro h hr
    simp only [dedupStep, h]
    rw [if_pos hr]

/-- Claim C4, witness: three concrete records, the third sharing the first's
id; with auto-confirm the output is the two first occurrences, and a
0.8-exceeding duplicate is discarded by the step function even in
interactive mode. -/
theorem dedup_first_occurrence_auto_confirm_witness :
    deduplicate_rules (fun _ _ => 1) true (fun _ => true)
        [⟨"a", "c1", "cursor", none⟩, ⟨"b", "x", "kiro", none⟩,
         ⟨"a", "c1", "codex", none⟩]
      = [⟨"a", "c1", "cursor", none⟩, ⟨"b", "x", "kiro", none⟩] ∧
    dedupStep (fun _ _ => 1) false (fun _ => true)
        ([("a", ⟨"a", "c1", "cursor", none⟩)], [⟨"a", "c1", "cursor", none⟩], 0)
        ⟨"a", "c1", "codex", none⟩
      = ([("a", ⟨"a", "c1", "cursor", none⟩)], [⟨"a", "c1", "cursor", none⟩], 0) := by
  have h := dedup_first_occurrence_auto_confirm (fun _ _ => 1) false
    (fun _ => true)
    [⟨"a", "c1", "cursor", none⟩, ⟨"b", "x", "kiro", none⟩,
     ⟨"a", "c1", "codex", none⟩]
    [("a", ⟨"a", "c1", "cursor", none⟩)] [⟨"a", "c1", "cursor", none⟩] 0
    ⟨"a", "c1", "codex", none⟩ ⟨"a", "c1", "cursor", none⟩
  refine ⟨h.1.trans (by decide), h.2 (by decide) (by norm_num)⟩

/-- The prune pass is a filter: it keeps exactly the non-stale entries and
removes the rest in enumeration order. -/
theorem prunePass_eq_filter (c : List String) (d : TargetDir) :
    prunePass c d
      = (d.filter (pruneKeep c),
         (d.filter fun e => !(pruneKeep c e)).map fun e => SkillOp.removeLink e.1) := by
  induction d with
  | nil => rfl
  | cons e rest ih =>
    simp only [prunePass, ih, List.filter_cons]
    by_cases h : pruneKeep c e = true <;> simp [h]

/-- Claim C9, counterexample.  The stale-file sweep in `gen_cursor` iterates
`rules_dir.glob("*.mdc")` and the prune pass of `sync_skills` iterates
`target_dir.iterdir()`, both without `sorted(...)`: with a directory
enumeration that returns `b` before `a`, both process (and remove) `b` before
`a` — not sorted-name order. -/
theorem generator_enumeration_unsorted_counterexample :
    (gen_cursor_stale_removals []
        [("b", GENERATED_HEADER ++ '\n' :: ['x']),
         ("a", GENERATED_HEADER ++ '\n' :: ['x'])]).map Prod.fst = ["b", "a"] ∧
    (prunePass [] [("b", .symlink (.skill "b")),
                   ("a", .symlink (.skill "a"))]).2
      = [.removeLink "b", .removeLink "a"] ∧
    namesSorted ["b", "a"] = false := by
  decide

/-- Claim C9, amended: the two generator-internal directory enumerations
(`gen_cursor`'s stale sweep and `sync_skills`'s prune pass) process entries
in the order the filesystem returns them, not sorted-name order; the *set* of
files affected is enumeration-order independent (the sweeps are filters), so
only log order varies. -/
theorem generator_enumeration_order_independent (ruleIds : List String)
    (l₁ l₂ : List (String × List Char)) (c : List String) (d₁ d₂ : TargetDir)
    (hl : l₁.Perm l₂) (hd : d₁.Perm d₂) :
    (gen_cursor_stale_removals ruleIds l₁).Perm
      (gen_cursor_stale_removals ruleIds l₂) ∧
    ((prunePass c d₁).2).Perm ((prunePass c d₂).2) := by
  constructor
  · exact hl.filter _
  · rw [prunePass_eq_filter, prunePass_eq_filter]
    exact (hd.filter _).map _

/-- Claim C9, witness for the amended theorem at concrete permuted
listings. -/
theorem generator_enumeration_order_independent_witness :
    (gen_cursor_stale_removals []
        [("a", GENERATED_HEADER ++ '\n' :: ['x']),
         ("b", GENERATED_HEADER ++ '\n' :: ['x'])]).Perm
      (gen_cursor_stale_removals []
        [("b", GENERATED_HEADER ++ '\n' :: ['x']),
         ("a", GENERATED_HEADER ++ '\n' :: ['x'])]) ∧
    ((prunePass [] [("a", DirEntry.real), ("b", DirEntry.real)]).2).Perm
      ((prunePass [] [("b", DirEntry.real), ("a", DirEntry.real)]).2) :=
  generator_enumeration_order_independent []
    [("a", GENERATED_HEADER ++ '\n' :: ['x']),
     ("b", GENERATED_HEADER ++ '\n' :: ['x'])]
    [("b", GENERATED_HEADER ++ '\n' :: ['x']),
     ("a", GENERATED_HEADER ++ '\n' :: ['x'])]
    [] [("a", DirEntry.real), ("b", DirEntry.real)]
    [("b", DirEntry.real), ("a", DirEntry.real)]
    (List.Perm.swap _ _ _) (List.Perm.swap _ _ _)

/-- A successful directory lookup is a membership. -/
theorem lookupEntry_mem {d : TargetDir} {n : String} {e : DirEntry}
    (h : lookupEntry d n = some e) : (n, e) ∈ d := by
  induction d with
  | nil => simp [lookupEntry] at h
  | cons kv rest ih =>
    obtain ⟨k, e'⟩ := kv
    by_cases hk : k = n
    · subst hk
      have he : e' = e := by simpa [lookupEntry] using h
      subst he
      exact List.mem_cons_self _ _
    · simp only [lookupEntry, if_neg hk] at h
      exact List.mem_cons_of_mem _ (ih h)

/-- A failed lookup means the name is absent. -/
theorem lookupEntry_none_iff {d : TargetDir} {n : String} :
    lookupEntry d n = none ↔ n ∉ d.map Prod.fst := by
  induction d with
  | nil => simp [lookupEntry]
  | cons kv rest ih =>
    obtain ⟨k, e'⟩ := kv
    by_cases hk : k = n
    · subst hk
      simp [lookupEntry]
    · simp [lookupEntry, hk, ih, Ne.symm hk]

/-- Lookup distributes over append via the first map. -/
theorem lookupEntry_append (d₁ d₂ : TargetDir) (n : String) :
    lookupEntry (d₁ ++ d₂) n
      = match lookupEntry d₁ n with
        | some e => some e
        | none => lookupEntry d₂ n := by
  induction d₁ with
  | nil => simp [lookupEntry]
  | cons kv rest ih =>
    obtain ⟨k, e'⟩ := kv
    by_cases hk : k = n
    · subst hk
      simp [lookupEntry]
    · simp only [List.cons_append, lookupEntry, if_neg hk]
      exact ih

/-- Replacing a present name makes its lookup return the new entry. -/
theorem lookupEntry_replaceEntry_self {d : TargetDir} {n : String}
    (e : DirEntry) (h : (lookupEntry d n).isSome) :
    lookupEntry (replaceEntry d n e) n = some e := by
  induction d with
  | nil => simp [lookupEntry] at h
  | cons kv rest ih =>
    obtain ⟨k, e'⟩ := kv
    by_cases hk : k = n
    · subst hk
      simp [replaceEntry, lookupEntry]
    · simp only [lookupEntry, if_neg hk] at h
      simp only [replaceEntry, if_neg hk, lookupEntry, if_neg hk]
      exact ih h

/-- Replacing one name leaves other lookups unchanged. -/
theorem lookupEntry_replaceEntry_other {d : TargetDir} {n m : String}
    (e : DirEntry) (h : m ≠ n) :
    lookupEntry (replaceEntry d n e) m = lookupEntry d m := by
  induction d with
  | nil => simp [replaceEntry]
  | cons kv rest ih =>
    obtain ⟨k, e'⟩ := kv
    by_cases hk : k = n
    · subst hk
      simp only [replaceEntry, if_pos rfl, lookupEntry]
      rw [if_neg, if_neg] <;> exact fun hkm => h (hkm ▸ rfl) |>.elim
    · simp only [replaceEntry, if_neg hk, lookupEntry]
      by_cases hm : k = m
      · simp [hm]
      · simp only [if_neg hm]
        exact ih

/-- Members of a replaced directory are the new entry or old members. -/
theorem mem_replaceEntry {d : TargetDir} {n : String} {e : DirEntry}
    {x : String × DirEntry} (h : x ∈ replaceEntry d n e) :
    x = (n, e) ∨ x ∈ d := by
  induction d with
  | nil => simp [replaceEntry] at h
  | cons kv rest ih =>
    obtain ⟨k, e'⟩ := kv
    by_cases hk : k = n
    · subst hk
      simp only [replaceEntry, if_pos rfl] at h
      rcases List.mem_cons.mp h with h | h
      · exact .inl h
      · exact .inr (List.mem_cons_of_mem _ h)
    · simp only [replaceEntry, if_neg hk] at h
      rcases List.mem_cons.mp h with h | h
      · exact .inr (h ▸ List.mem_cons_self _ _)
      · rcases ih h with h | h
        · exact .inl h
        · exact .inr (List.mem_cons_of_mem _ h)

/-- Replacement does not change the name sequence. -/
theorem map_fst_replaceEntry (d : TargetDir) (n : String) (e : DirEntry) :
    (replaceEntry d n e).map Prod.fst = d.map Prod.fst := by
  induction d with
  | nil => rfl
  | cons kv rest ih =>
    obtain ⟨k, e'⟩ := kv
    by_cases hk : k = n
    · subst hk; simp [replaceEntry]
    · simp [replaceEntry, hk, ih]

/-- The create-pass fold with a non-empty initial op list just prepends it. -/
theorem createPass_ops_append (todo : List String) :
    ∀ (dir : TargetDir) (ops : List SkillOp),
      todo.foldl
          (fun st name =>
            let r := createStep st.1 name
            (r.1, st.2 ++ r.2)) (dir, ops)
        = ((createPass todo dir).1, ops ++ (createPass todo dir).2) := by
  induction todo with
  | nil => intro dir ops; simp [createPass]
  | cons n todo ih =>
    intro dir ops
    rw [List.foldl_cons]
    show todo.foldl _ ((createStep dir n).1, ops ++ (createStep dir n).2) = _
    rw [ih]
    unfold createPass
    rw [List.foldl_cons]
    show _ = ((todo.foldl _ ((createStep dir n).1, [] ++ (createStep dir n).2)).1,
      ops ++ (todo.foldl _ ((createStep dir n).1, [] ++ (createStep dir n).2)).2)
    rw [List.nil_append, ih ((createStep dir n).1) ((createStep dir n).2)]
    simp [createPass, List.append_assoc]

/-- If every requested skill is settled, the create pass does nothing. -/
theorem createPass_settled (todo : List String) :
    ∀ (dir : TargetDir), (∀ n ∈ todo, skillSettled dir n) →
      createPass todo dir = (dir, []) := by
  induction todo with
  | nil => intro dir _; rfl
  | cons n todo ih =>
    intro dir h
    have hstep : createStep dir n = (dir, []) := by
      rcases h n (List.mem_cons_self _ _) with hs | hs <;>
        simp [createStep, hs]
    unfold createPass
    rw [List.foldl_cons]
    show todo.foldl _ ((createStep dir n).1, [] ++ (createStep dir n).2) = _
    rw [hstep]
    simpa [createPass] using ih dir fun m hm => h m (List.mem_cons_of_mem _ hm)

/-- The create pass preserves the prune invariant and name uniqueness, makes
every processed name settled, and keeps previously settled names settled. -/
theorem createPass_establishes (full : List String) (todo : List String) :
    ∀ (dir : TargetDir),
      (∀ x ∈ todo, x ∈ full) →
      (∀ e ∈ dir, pruneKeep full e = true) →
      (dir.map Prod.fst).Nodup →
      (∀ e ∈ (createPass todo dir).1, pruneKeep full e = true) ∧
      ((createPass todo dir).1.map Prod.fst).Nodup ∧
      (∀ n ∈ todo, skillSettled (createPass todo dir).1 n) ∧
      (∀ n, skillSettled dir n → skillSettled (createPass todo dir).1 n) := by
  induction todo with
  | nil =>
    intro dir _ hA hnd
    exact ⟨hA, hnd, by simp, fun _ h => h⟩
  | cons n todo ih =>
    intro dir hsub hA hnd
    have hnfull : n ∈ full := hsub n (List.mem_cons_self _ _)
    have hcorrect : pruneKeep full (n, DirEntry.symlink (.skill n)) = true := by
      simp [pruneKeep, hnfull]
    -- the one-step successor directory
    obtain ⟨dir₂, hdir₂, hA₂, hnd₂, hset₂, hpres₂⟩ :
        ∃ dir₂, createStep dir n = (dir₂, (createStep dir n).2) ∧
          (∀ e ∈ dir₂, pruneKeep full e = true) ∧
          (dir₂.map Prod.fst).Nodup ∧
          skillSettled dir₂ n ∧
          (∀ m, skillSettled dir m → skillSettled dir₂ m) := by
      cases hl : lookupEntry dir n with
      | some e =>
        cases e with
        | symlink dst =>
          by_cases hdst : dst = .skill n
          · subst hdst
            refine ⟨dir, by simp [createStep, hl], hA, hnd, .inl hl, fun _ h => h⟩
          · have hmem := lookupEntry_mem hl
            have hkeep := hA _ hmem
            have hout : ∀ m, dst ≠ LinkDest.skill m ∨ dst = .skill n := by
              intro m
              cases dst with
              | skill m' =>
                simp only [pruneKeep, hnfull, if_pos, decide_eq_true_eq] at hkeep
                exact .inr (by rw [hkeep])
              | outside p => exact .inl (by simp)
            refine ⟨replaceEntry dir n (.symlink (.skill n)),
              by simp [createStep, hl, hdst], ?_, ?_, ?_, ?_⟩
            · intro e he
              rcases mem_replaceEntry he with h | h
              · rw [h]; exact hcorrect
              · exact hA _ h
            · rw [map_fst_replaceEntry]; exact hnd
            · exact .inl (lookupEntry_replaceEntry_self _ (by simp [hl]))
            · intro m hm
              by_cases hmn : m = n
              · subst hmn
                exact .inl (lookupEntry_replaceEntry_self _ (by simp [hl]))
              · unfold skillSettled
                rw [lookupEntry_replaceEntry_other _ hmn]
                exact hm
        | real =>
          refine ⟨dir, by simp [createStep, hl], hA, hnd, .inr hl, fun _ h => h⟩
      | none =>
        have hnotin : n ∉ dir.map Prod.fst := lookupEntry_none_iff.mp hl
        refine ⟨dir ++ [(n, .symlink (.skill n))],
          by simp [createStep, hl], ?_, ?_, ?_, ?_⟩
        · intro e he
          rcases List.mem_append.mp he with h | h
          · exact hA _ h
          · rw [List.mem_singleton.mp h]; exact hcorrect
        · rw [List.map_append]
          simp only [List.map_cons, List.map_nil]
          rw [List.nodup_append]
          exact ⟨hnd, List.nodup_singleton _, by simpa using hnotin⟩
        · refine .inl ?_
          rw [lookupEntry_append, hl]
          simp [lookupEntry]
        · intro m hm
          have hms : (lookupEntry dir m).isSome := by
            rcases hm with h | h <;> simp [h]
          unfold skillSettled
          rw [lookupEntry_append]
          rcases hm with h | h <;> rw [h] <;> [exact .inl rfl; exact .inr rfl]
    have hfold : createPass (n :: todo) dir
        = ((createPass todo dir₂).1,
           (createStep dir n).2 ++ (createPass todo dir₂).2) := by
      unfold createPass
      rw [List.foldl_cons]
      show todo.foldl _ ((createStep dir n).1, [] ++ (createStep dir n).2) = _
      rw [List.nil_append]
      have : (createStep dir n).1 = dir₂ := by rw [hdir₂]
      rw [this, createPass_ops_append]
      rfl
    have hrest := ih dir₂ (fun x hx => hsub x (List.mem_cons_of_mem _ hx)) hA₂ hnd₂
    refine ⟨by rw [hfold]; exact hrest.1, by rw [hfold]; exact hrest.2.1, ?_, ?_⟩
    · intro m hm
      rcases List.mem_cons.mp hm with h | h
      · subst h
        rw [hfold]
        exact hrest.2.2.2 _ hset₂
      · rw [hfold]
        exact hrest.2.2.1 _ h
    · intro m hm
      rw [hfold]
      exact hrest.2.2.2 _ (hpres₂ _ hm)

/-- Claim C6: skill-symlink reconciliation is idempotent — on any target
directory (with unique entry names, as on a real filesystem), running the
algorithm a second time with the canonical store unchanged performs zero
filesystem mutations and leaves the directory as the first run left it. -/
theorem sync_skills_idempotent (canonical : List String) (dir : TargetDir)
    (hnd : (dir.map Prod.fst).Nodup) :
    sync_skills canonical (sync_skills canonical dir).1
      = ((sync_skills canonical dir).1, []) := by
  -- state after the first run
  have hprune1 : (prunePass canonical dir).1 = dir.filter (pruneKeep canonical) := by
    rw [prunePass_eq_filter]
  have hA1 : ∀ e ∈ (prunePass canonical dir).1, pruneKeep canonical e = true := by
    rw [hprune1]
    intro e he
    exact (List.mem_filter.mp he).2
  have hnd1 : ((prunePass canonical dir).1.map Prod.fst).Nodup := by
    rw [hprune1]
    exact hnd.sublist ((List.filter_sublist _).map _)
  obtain ⟨hA2, hnd2, hset2, _⟩ :=
    createPass_establishes canonical canonical (prunePass canonical dir).1
      (fun _ h => h) hA1 hnd1
  set dir₁ := (createPass canonical (prunePass canonical dir).1).1 with hdir₁
  have hfirst : (sync_skills canonical dir).1 = dir₁ := by
    unfold sync_skills
    rfl
  rw [hfirst]
  -- the second run is a no-op
  have hpruneid : prunePass canonical dir₁ = (dir₁, []) := by
    rw [prunePass_eq_filter]
    have h1 : dir₁.filter (pruneKeep canonical) = dir₁ :=
      List.filter_eq_self.mpr hA2
    have h2 : dir₁.filter (fun e => !(pruneKeep canonical e)) = [] := by
      rw [List.filter_eq_nil_iff]
      intro e he
      simp [hA2 e he]
    rw [h1, h2]
    rfl
  have hcreateid : createPass canonical dir₁ = (dir₁, []) :=
    createPass_settled canonical dir₁ hset2
  show ((createPass canonical (prunePass canonical dir₁).1).1,
    (prunePass canonical dir₁).2 ++
      (createPass canonical (prunePass canonical dir₁).1).2) = (dir₁, [])
  rw [hpruneid]
  show ((createPass canonical dir₁).1, [] ++ (createPass canonical dir₁).2)
    = (dir₁, [])
  rw [hcreateid]
  rfl

/-- Claim C6, witness: a concrete directory holding a retargeted symlink and
a real entry, reconciled twice against a one-skill store. -/
theorem sync_skills_idempotent_witness :
    sync_skills ["sk"]
        (sync_skills ["sk"]
          [("sk", DirEntry.symlink (.outside "p")), ("x", DirEntry.real)]).1
      = ((sync_skills ["sk"]
          [("sk", DirEntry.symlink (.outside "p")), ("x", DirEntry.real)]).1,
         []) :=
  sync_skills_idempotent ["sk"]
    [("sk", DirEntry.symlink (.outside "p")), ("x", DirEntry.real)] (by decide)

/-- Lists with distinct head characters are not prefix-related. -/
theorem isPrefixOf_false_of_head_ne {a b : List Char} {x y : Char}
    (ha : a.head? = some x) (hb : b.head? = some y) (hxy : x ≠ y) :
    a.isPrefixOf b = false := by
  cases a with
  | nil => simp at ha
  | cons a' as =>
    cases b with
    | nil => simp at hb
    | cons b' bs =>
      simp only [List.head?_cons, Option.some.injEq] at ha hb
      subst ha; subst hb
      simp [List.isPrefixOf, hxy]

/-- A sentinel-marked text cannot start with the `---` delimiter, so the
frontmatter parser returns it whole as the body. -/
theorem parse_frontmatter_body_of_generated {text : List Char}
    (h : is_generated_file text = true) :
    (parse_frontmatter text).2 = text := by
  have hd : dashes.isPrefixOf text = false := by
    cases htext : text with
    | nil => rfl
    | cons c t =>
      by_cases hc : c = '-'
      · subst hc
        unfold is_generated_file at h
        rw [htext] at h
        have hls : lstripWS ('-' :: t) = '-' :: t := by
          simp [lstripWS, List.dropWhile_cons, pyWS]
        rw [hls] at h
        have : GENERATED_HEADER.isPrefixOf ('-' :: t) = false :=
          isPrefixOf_false_of_head_ne rfl rfl (by decide)
        rw [this] at h
        exact absurd h (by simp)
      · simp [dashes, List.isPrefixOf, Ne.symm hc]
  unfold parse_frontmatter
  rw [hd]
  simp

/-- Claim C7: neither the stale-file sweep in `gen_cursor` nor the clean
command deletes a file whose body is not sentinel-marked — each deleted
per-file artifact has a generated body, and a single-file artifact selected
by the whole-text sentinel check also has a generated body (the sentinel and
a frontmatter block cannot coexist at the top of a file). -/
theorem cleanup_only_deletes_generated
    (ruleIds : List String) (listing : List (String × List Char))
    (f : String × List Char) (text : List Char) :
    (f ∈ gen_cursor_stale_removals ruleIds listing →
      is_generated_file (parse_frontmatter f.2).2 = true) ∧
    (f ∈ find_generated_per_file listing →
      is_generated_file (parse_frontmatter f.2).2 = true) ∧
    (is_generated_file text = true →
      is_generated_file (parse_frontmatter text).2 = true) := by
  refine ⟨?_, ?_, ?_⟩
  · intro h
    have hc := (List.mem_filter.mp h).2
    rw [Bool.and_eq_true] at hc
    exact hc.2
  · intro h
    exact (List.mem_filter.mp h).2
  · intro h
    rw [parse_frontmatter_body_of_generated h]
    exact h

/-- Claim C7, witness at a concrete listing and single-file text. -/
theorem cleanup_only_deletes_generated_witness :
    is_generated_file
      (parse_frontmatter
        (("s", GENERATED_HEADER ++ '\n' :: ['x']) :
          String × List Char).2).2 = true ∧
    is_generated_file
      (parse_frontmatter (GENERATED_HEADER ++ '\n' :: ['y'])).2 = true := by
  have h := cleanup_only_deletes_generated []
    [("s", GENERATED_HEADER ++ '\n' :: ['x'])]
    ("s", GENERATED_HEADER ++ '\n' :: ['x'])
    (GENERATED_HEADER ++ '\n' :: ['y'])
  exact ⟨h.1 (by decide), h.2.2 (by decide)⟩

/-- Claim C10: the frontmatter parser is total by construction (every
operation it uses — prefix test, substring search, slicing, line splitting —
is total, so it returns a `(metadata, body)` pair on every input); its
metadata values are booleans or strings by the type of the coercion; and a
line of the block that is empty, a `#` comment, or fails the `key: value`
regex contributes nothing to the metadata fold. -/
theorem parse_frontmatter_values_and_skips
    (text : List Char) (k : List Char) (v : PyVal) (d : PyDict)
    (ls₁ ls₂ : List (List Char)) (g : List Char)
    (hg : stripWS g = [] ∨ (stripWS g).head? = some '#' ∨
      matchKV (stripWS g) = none) :
    ((k, v) ∈ (parse_frontmatter text).1 →
      (∃ b, v = .boolV b) ∨ (∃ s, v = .strV s)) ∧
    (ls₁ ++ g :: ls₂).foldl procLine d = (ls₁ ++ ls₂).foldl procLine d := by
  constructor
  · intro _
    cases v with
    | boolV b => exact .inl ⟨b, rfl⟩
    | strV s => exact .inr ⟨s, rfl⟩
  · have hskip : ∀ m, procLine m g = m := by
      intro m
      rcases hg with h | h | h
      · simp [procLine, h]
      · have hne : (stripWS g).isEmpty = false := by
          cases hs : stripWS g with
          | nil => rw [hs] at h; simp at h
          | cons a t => rfl
        simp [procLine, hne, h]
      · by_cases he : (stripWS g).isEmpty
        · simp [procLine, he]
        · by_cases hh : (stripWS g).head? = some '#'
          · simp [procLine, he, hh]
          · simp [procLine, he, hh, h]
    rw [List.foldl_append, List.foldl_append, List.foldl_cons, hskip]

/-- Claim C10, witness: a comment line inside the block is skipped. -/
theorem parse_frontmatter_values_and_skips_witness :
    ([['a', ':', ' ', 'b']] ++ ['#', ' ', 'c'] :: []).foldl procLine []
      = ([['a', ':', ' ', 'b']] ++ []).foldl procLine [] :=
  (parse_frontmatter_values_and_skips [] [] (.boolV true) []
    [['a', ':', ' ', 'b']] [] ['#', ' ', 'c']
    (.inr (.inl (by decide)))).2

/-! ### Locating the closing delimiter -/

/-- Unfolding equation for `findSub`. -/
theorem findSub_eq (hay sub : List Char) :
    findSub hay sub
      = if sub.isPrefixOf hay then some 0
        else
          match hay with
          | [] => none
          | _ :: t => (findSub t sub).map (· + 1) := by
  rw [findSub.eq_def]

/-- A list is a prefix of itself followed by anything. -/
theorem isPrefixOf_self_append (l r : List Char) : l.isPrefixOf (l ++ r) = true :=
  List.isPrefixOf_iff_prefix.mpr (List.prefix_append l r)

/-- Unfolding equation for `noTripleB` on a cons. -/
theorem noTripleB_cons (c : Char) (l : List Char) :
    noTripleB (c :: l) = (!(dashes.isPrefixOf (c :: l)) && noTripleB l) := rfl

/-- A `---`-free list followed by a newline-headed tail contains the
delimiter exactly where the tail does. -/
theorem findSub_append_noTriple (acc : List Char) (hacc : acc.head? = some '\n') :
    ∀ (l : List Char), noTripleB l = true →
      findSub (l ++ acc) dashes = (findSub acc dashes).map (· + l.length) := by
  intro l
  induction l with
  | nil =>
    intro _
    simp only [List.nil_append, List.length_nil]
    cases h : findSub acc dashes <;> simp
  | cons c l' ih =>
    intro hnt
    rw [noTripleB_cons] at hnt
    rw [Bool.and_eq_true] at hnt
    obtain ⟨hpre, hnt'⟩ := hnt
    have hpre' : dashes.isPrefixOf (c :: l') = false := by
      cases hp : dashes.isPrefixOf (c :: l')
      · rfl
      · rw [hp] at hpre; exact absurd hpre (by simp)
    obtain ⟨acc', rfl⟩ : ∃ acc', acc = '\n' :: acc' := by
      cases acc with
      | nil => simp at hacc
      | cons a t =>
        simp only [List.head?_cons, Option.some.injEq] at hacc
        exact ⟨t, by rw [hacc]⟩
    have hnl : ('-' == '\n') = false := by decide
    have hnopre : dashes.isPrefixOf (c :: (l' ++ '\n' :: acc')) = false := by
      match l' with
      | [] =>
        show List.isPrefixOf ['-', '-', '-'] (c :: '\n' :: acc') = false
        simp [List.isPrefixOf, hnl]
      | [d] =>
        show List.isPrefixOf ['-', '-', '-'] (c :: d :: '\n' :: acc') = false
        simp [List.isPrefixOf, hnl]
      | d :: e :: l'' =>
        show List.isPrefixOf ['-', '-', '-']
          (c :: d :: e :: (l'' ++ '\n' :: acc')) = false
        have h3 : List.isPrefixOf ['-', '-', '-'] (c :: d :: e :: l'') = false := by
          simpa [dashes] using hpre'
        simp only [List.isPrefixOf, Bool.and_eq_false_iff] at h3 ⊢
        simpa using h3
    rw [List.cons_append, findSub_eq, hnopre]
    simp only [Bool.false_eq_true, if_false]
    rw [ih hnt']
    cases findSub ('\n' :: acc') dashes <;> simp
    omega

/-- Head of the folded block shape. -/
theorem blockFold_head (L : List (List Char)) (tail : List Char) :
    ((L.foldr (fun l acc => '\n' :: (l ++ acc)) ('\n' :: tail)).head?)
      = some '\n' := by
  cases L <;> rfl

/-- The position of the closing delimiter after a block of `---`-free
lines. -/
theorem findSub_block (body : List Char) :
    ∀ (L : List (List Char)), (∀ l ∈ L, noTripleB l = true) →
      findSub (L.foldr (fun l acc => '\n' :: (l ++ acc))
          ('\n' :: (dashes ++ body))) dashes
        = some ((L.map fun l => l.length + 1).sum + 1) := by
  intro L
  induction L with
  | nil =>
    intro _
    simp only [List.foldr_nil, List.map_nil, List.sum_nil]
    rw [findSub_eq]
    have hno : dashes.isPrefixOf ('\n' :: (dashes ++ body)) = false :=
      isPrefixOf_false_of_head_ne rfl rfl (by decide)
    rw [hno]
    simp only [Bool.false_eq_true, if_false]
    rw [findSub_eq, isPrefixOf_self_append]
    simp
  | cons l L' ih =>
    intro hL
    simp only [List.foldr_cons]
    rw [findSub_eq]
    have hhead := blockFold_head L' (dashes ++ body)
    have hno : dashes.isPrefixOf
        ('\n' :: (l ++ L'.foldr (fun l acc => '\n' :: (l ++ acc))
          ('\n' :: (dashes ++ body)))) = false :=
      isPrefixOf_false_of_head_ne rfl rfl (by decide)
    rw [hno]
    simp only [Bool.false_eq_true, if_false]
    rw [findSub_append_noTriple _ hhead l (hL l (List.mem_cons_self _ _)),
      ih fun x hx => hL x (List.mem_cons_of_mem _ hx)]
    simp only [Option.map, List.map_cons, List.sum_cons, Option.some.injEq]
    omega

/-! ### Structure of the encoder output -/

/-- `joinNL` on a cons with a non-empty tail. -/
theorem joinNL_cons_of_ne_nil (a : List Char) (ls : List (List Char))
    (h : ls ≠ []) : joinNL (a :: ls) = a ++ '\n' :: joinNL ls := by
  cases ls with
  | nil => exact absurd rfl h
  | cons b ls' => rfl

/-- The encoder output starts with the delimiter and a newline. -/
theorem build_frontmatter_decomp (m : PyDict) :
    build_frontmatter m
      = dashes ++ '\n' ::
          joinNL ((m.map fun kv => buildFMLine kv.1 kv.2) ++ [dashes]) := by
  unfold build_frontmatter
  rw [List.cons_append, joinNL_cons_of_ne_nil dashes
    ((m.map fun kv => buildFMLine kv.1 kv.2) ++ [dashes]) (by simp)]

/-- The block fold with a tail is the block fold over nil plus the tail. -/
theorem blockFold_append (L : List (List Char)) (tail : List Char) :
    L.foldr (fun l acc => '\n' :: (l ++ acc)) tail
      = L.foldr (fun l acc => '\n' :: (l ++ acc)) [] ++ tail := by
  induction L with
  | nil => rfl
  | cons l L' ih => simp [List.foldr_cons, ih]

/-- The newline-joined inner block, with closing delimiter and body attached,
in folded form. -/
theorem joinNL_block (body : List Char) (X : List (List Char)) :
    '\n' :: (joinNL (X ++ [dashes]) ++ body)
      = X.foldr (fun l acc => '\n' :: (l ++ acc)) ('\n' :: (dashes ++ body)) := by
  induction X with
  | nil => rfl
  | cons l X' ih =>
    rw [List.cons_append, joinNL_cons_of_ne_nil l (X' ++ [dashes]) (by simp),
      List.foldr_cons, ← ih]
    simp

/-- Length of the block fold. -/
theorem blockFold_length (X : List (List Char)) :
    (X.foldr (fun l acc => '\n' :: (l ++ acc)) []).length
      = (X.map fun l => l.length + 1).sum := by
  induction X with
  | nil => rfl
  | cons l X' ih =>
    simp only [List.foldr_cons, List.length_cons, List.length_append, ih,
      List.map_cons, List.sum_cons]
    omega

/-- For a non-empty block, the fold is a newline followed by the join. -/
theorem blockFold_eq_joinNL : ∀ {X : List (List Char)}, X ≠ [] →
    X.foldr (fun l acc => '\n' :: (l ++ acc)) [] = '\n' :: joinNL X := by
  intro X
  induction X with
  | nil => exact fun h => absurd rfl h
  | cons l X' ih =>
    intro _
    cases X' with
    | nil => simp [joinNL]
    | cons l₂ X'' =>
      rw [List.foldr_cons, ih (by simp),
        joinNL_cons_of_ne_nil l (l₂ :: X'') (by simp)]

/-! ### Stripping and line splitting -/

/-- `lstrip` drops a leading whitespace character. -/
theorem lstripWS_cons_ws {c : Char} (hc : pyWS c = true) (l : List Char) :
    lstripWS (c :: l) = lstripWS l := by
  simp [lstripWS, List.dropWhile_cons, hc]

/-- `lstrip` keeps a list headed by non-whitespace. -/
theorem lstripWS_of_head {l : List Char} {c : Char} (h : l.head? = some c)
    (hc : pyWS c = false) : lstripWS l = l := by
  cases l with
  | nil => rfl
  | cons a t =>
    simp only [List.head?_cons, Option.some.injEq] at h
    subst h
    simp [lstripWS, List.dropWhile_cons, hc]

/-- `rstrip` drops a trailing whitespace character. -/
theorem rstripWS_append_ws {c : Char} (hc : pyWS c = true) (l : List Char) :
    rstripWS (l ++ [c]) = rstripWS l := by
  simp [rstripWS, List.dropWhile_cons, hc]

/-- `rstrip` keeps a list ending in non-whitespace. -/
theorem rstripWS_of_last {l : List Char} {c : Char} (h : l.getLast? = some c)
    (hc : pyWS c = false) : rstripWS l = l := by
  have h' : l.reverse.head? = some c := by rw [List.head?_reverse]; exact h
  have hd := lstripWS_of_head h' hc
  unfold lstripWS at hd
  unfold rstripWS
  rw [hd, List.reverse_reverse]

/-- `normalizeCRLF` is the identity on carriage-return-free input. -/
theorem normalizeCRLF_no_cr {l : List Char} (h : '\r' ∉ l) :
    normalizeCRLF l = l := by
  induction l with
  | nil => rfl
  | cons c rest ih =>
    have hc : ¬ (c = '\r') := fun hh => h (hh ▸ List.mem_cons_self c rest)
    rw [normalizeCRLF.eq_3 c rest (fun _ h1 _ => hc h1),
      ih fun hm => h (List.mem_cons_of_mem _ hm)]

/-- The splitter on boundary-free input yields the single accumulated
line. -/
theorem splitlinesAux_no_break :
    ∀ (l acc : List Char), ('\n' ∉ l) → ('\r' ∉ l) →
      splitlinesAux acc l
        = if acc.isEmpty && l.isEmpty then [] else [acc.reverse ++ l] := by
  intro l
  induction l with
  | nil =>
    intro acc _ _
    simp [splitlinesAux]
  | cons c rest ih =>
    intro acc hn hr
    have hc : (c = '\n' || c = '\r') = false := by
      simp only [Bool.or_eq_false_iff, decide_eq_false_iff_not]
      exact ⟨fun h => hn (h ▸ List.mem_cons_self c rest),
        fun h => hr (h ▸ List.mem_cons_self c rest)⟩
    rw [splitlinesAux, hc]
    simp only [Bool.false_eq_true, if_false]
    rw [ih (c :: acc) (fun hm => hn (List.mem_cons_of_mem _ hm))
      (fun hm => hr (List.mem_cons_of_mem _ hm))]
    simp

/-- The splitter emits the accumulated line at a newline boundary. -/
theorem splitlinesAux_append_break :
    ∀ (l acc rest : List Char), ('\n' ∉ l) → ('\r' ∉ l) →
      splitlinesAux acc (l ++ '\n' :: rest)
        = (acc.reverse ++ l) :: splitlinesAux [] rest := by
  intro l
  induction l with
  | nil =>
    intro acc rest _ _
    simp [splitlinesAux]
  | cons c l' ih =>
    intro acc rest hn hr
    have hc : (c = '\n' || c = '\r') = false := by
      simp only [Bool.or_eq_false_iff, decide_eq_false_iff_not]
      exact ⟨fun h => hn (h ▸ List.mem_cons_self c l'),
        fun h => hr (h ▸ List.mem_cons_self c l')⟩
    rw [List.cons_append, splitlinesAux, hc]
    simp only [Bool.false_eq_true, if_false]
    rw [ih (c :: acc) rest (fun hm => hn (List.mem_cons_of_mem _ hm))
      (fun hm => hr (List.mem_cons_of_mem _ hm))]
    simp

/-- A newline-join of carriage-return-free lines has no carriage return. -/
theorem no_cr_joinNL : ∀ {X : List (List Char)},
    (∀ l ∈ X, '\r' ∉ l) → '\r' ∉ joinNL X := by
  intro X
  induction X with
  | nil => simp [joinNL]
  | cons l X' ih =>
    intro h
    cases X' with
    | nil => exact h l (List.mem_cons_self _ _)
    | cons l₂ X'' =>
      rw [joinNL_cons_of_ne_nil l (l₂ :: X'') (by simp)]
      intro hm
      rcases List.mem_append.mp hm with hm | hm
      · exact h l (List.mem_cons_self _ _) hm
      · rcases List.mem_cons.mp hm with hm | hm
        · exact absurd hm.symm (by decide)
        · exact ih (fun x hx => h x (List.mem_cons_of_mem _ hx)) hm

/-- Splitting a newline-join of non-empty boundary-free lines recovers the
lines. -/
theorem splitlines_joinNL :
    ∀ (X : List (List Char)),
      (∀ l ∈ X, l ≠ [] ∧ '\n' ∉ l ∧ '\r' ∉ l) →
      splitlines (joinNL X) = X := by
  intro X
  induction X with
  | nil => intro _; rfl
  | cons l X' ih =>
    intro h
    obtain ⟨hne, hn, hr⟩ := h l (List.mem_cons_self _ _)
    cases X' with
    | nil =>
      unfold splitlines
      rw [show joinNL [l] = l from rfl, normalizeCRLF_no_cr hr,
        splitlinesAux_no_break l [] hn hr]
      simp [hne]
    | cons l₂ X'' =>
      have hrest := ih fun x hx => h x (List.mem_cons_of_mem _ hx)
      unfold splitlines at hrest ⊢
      have hrr : '\r' ∉ joinNL (l₂ :: X'') :=
        no_cr_joinNL fun x hx => (h x (List.mem_cons_of_mem _ hx)).2.2
      rw [joinNL_cons_of_ne_nil l (l₂ :: X'') (by simp),
        normalizeCRLF_no_cr (by
          intro hm
          rcases List.mem_append.mp hm with hm | hm
          · exact hr hm
          · rcases List.mem_cons.mp hm with hm | hm
            · exact absurd hm.symm (by decide)
            · exact hrr hm),
        splitlinesAux_append_break l [] _ hn hr]
      rw [normalizeCRLF_no_cr hrr] at hrest
      rw [hrest]
      simp

/-! ### Character classes and delimiter-freeness of encoded lines -/

/-- The four whitespace characters. -/
theorem pyWS_cases {c : Char} (h : pyWS c = true) :
    c = ' ' ∨ c = '\t' ∨ c = '\n' ∨ c = '\r' := by
  simpa [pyWS, or_assoc] using h

/-- Word characters are not whitespace. -/
theorem pyWS_of_word {c : Char} (h : isWordChar c = true) : pyWS c = false := by
  cases hp : pyWS c
  · rfl
  · rcases pyWS_cases hp with h' | h' | h' | h' <;> subst h' <;>
      exact absurd h (by decide)

/-- Word characters are not dashes. -/
theorem word_ne_dash {c : Char} (h : isWordChar c = true) : c ≠ '-' :=
  fun hh => absurd (hh ▸ h) (by decide)

/-- Word characters are not hashes. -/
theorem word_ne_hash {c : Char} (h : isWordChar c = true) : c ≠ '#' :=
  fun hh => absurd (hh ▸ h) (by decide)

/-- Printable non-space characters are not whitespace. -/
theorem pyWS_of_printable {c : Char} (hp : printableChar c = true)
    (hs : c ≠ ' ') : pyWS c = false := by
  cases hw : pyWS c
  · rfl
  · rcases pyWS_cases hw with h | h | h | h
    · exact absurd h hs
    all_goals (subst h; exact absurd hp (by decide))

/-- A dash-free cons stays `---`-free. -/
theorem noTriple_cons_of_ne {c : Char} {l : List Char} (hc : c ≠ '-')
    (hl : noTripleB l = true) : noTripleB (c :: l) = true := by
  rw [noTripleB_cons]
  have hpre : dashes.isPrefixOf (c :: l) = false := by
    show List.isPrefixOf ['-', '-', '-'] (c :: l) = false
    simp [List.isPrefixOf, Ne.symm hc]
  simp [hpre, hl]

/-- Dash-free lists are `---`-free. -/
theorem noTriple_of_no_dash : ∀ {l : List Char}, (∀ c ∈ l, c ≠ '-') →
    noTripleB l = true := by
  intro l
  induction l with
  | nil => intro _; rfl
  | cons c l' ih =>
    intro h
    exact noTriple_cons_of_ne (h c (List.mem_cons_self _ _))
      (ih fun x hx => h x (List.mem_cons_of_mem _ hx))

/-- Prepending dash-free characters preserves `---`-freeness. -/
theorem noTriple_append_left : ∀ {a : List Char} {b : List Char},
    (∀ c ∈ a, c ≠ '-') → noTripleB b = true → noTripleB (a ++ b) = true := by
  intro a
  induction a with
  | nil => intro b _ hb; exact hb
  | cons c a' ih =>
    intro b ha hb
    rw [List.cons_append]
    exact noTriple_cons_of_ne (ha c (List.mem_cons_self _ _))
      (ih (fun x hx => ha x (List.mem_cons_of_mem _ hx)) hb)

/-- Appending a non-dash character preserves `---`-freeness. -/
theorem noTriple_concat : ∀ {v : List Char}, noTripleB v = true →
    ∀ {d : Char}, d ≠ '-' → noTripleB (v ++ [d]) = true := by
  intro v
  induction v with
  | nil => intro _ d hd; exact noTriple_cons_of_ne hd rfl
  | cons c v' ih =>
    intro hv d hd
    rw [noTripleB_cons] at hv
    rw [Bool.and_eq_true] at hv
    obtain ⟨hpre, hv'⟩ := hv
    rw [Bool.not_eq_eq_eq_not, Bool.not_true] at hpre
    rw [List.cons_append, noTripleB_cons]
    have hgoal : dashes.isPrefixOf (c :: (v' ++ [d])) = false := by
      rcases v' with _ | ⟨e, v0⟩
      · show List.isPrefixOf ['-', '-', '-'] [c, d] = false
        simp [List.isPrefixOf]
      · rcases v0 with _ | ⟨f, v''⟩
        · show List.isPrefixOf ['-', '-', '-'] [c, e, d] = false
          simp [List.isPrefixOf, Ne.symm hd]
        · show List.isPrefixOf ['-', '-', '-']
            (c :: e :: f :: (v'' ++ [d])) = false
          have h3 : List.isPrefixOf ['-', '-', '-'] (c :: e :: f :: v'') = false :=
            hpre
          simp only [List.isPrefixOf, Bool.and_eq_false_iff] at h3 ⊢
          simpa using h3
    simp [hgoal, ih hv' hd]

/-- `buildFMLine` in key/value shape. -/
theorem buildFMLine_eq (k : List Char) (v : PyVal) :
    buildFMLine k v = k ++ ':' :: ' ' :: encodedVal v := by
  cases v with
  | boolV b => cases b <;> rfl
  | strV s =>
    by_cases h : needsQuote s
    · simp [buildFMLine, encodedVal, h]
    · simp [buildFMLine, encodedVal, h]

/-- `encodedVal` on a string value. -/
theorem encodedVal_strV (s : List Char) :
    encodedVal (.strV s) = if needsQuote s then '\"' :: s ++ ['\"'] else s := rfl

/-- A delimiter-free value encodes to a `---`-free text. -/
theorem encodedVal_noTriple {v : PyVal} (hv : delimFreeVal v) :
    noTripleB (encodedVal v) = true := by
  cases v with
  | boolV b => cases b <;> decide
  | strV s =>
    have hs : noTripleB s = true := hv
    rw [encodedVal_strV]
    by_cases hq : needsQuote s
    · rw [if_pos hq]
      exact noTriple_cons_of_ne (by decide) (noTriple_concat hs (by decide))
    · rw [if_neg hq]
      exact hs

/-- Safe values are delimiter-free. -/
theorem delimFree_of_safe {v : PyVal} (hv : safeVal v) : delimFreeVal v := by
  cases v with
  | boolV b => trivial
  | strV s => exact hv.2.2.2.2.1

/-- An encoded line from a word-char key and delimiter-free value is
`---`-free. -/
theorem buildFMLine_noTriple {k : List Char} {v : PyVal}
    (hk : ∀ c ∈ k, isWordChar c = true) (hv : delimFreeVal v) :
    noTripleB (buildFMLine k v) = true := by
  rw [buildFMLine_eq]
  refine noTriple_append_left (fun c hc => word_ne_dash (hk c hc)) ?_
  exact noTriple_cons_of_ne (by decide)
    (noTriple_cons_of_ne (by decide) (encodedVal_noTriple hv))

/-- The encoded value of a safe value is non-empty. -/
theorem encodedVal_ne_nil {v : PyVal} (hv : safeVal v) : encodedVal v ≠ [] := by
  cases v with
  | boolV b => cases b <;> decide
  | strV s =>
    rw [encodedVal_strV]
    by_cases hq : needsQuote s
    · rw [if_pos hq]; simp
    · rw [if_neg hq]; exact hv.1

/-- The encoded value of a safe value starts with a non-whitespace
character. -/
theorem encodedVal_head {v : PyVal} (hv : safeVal v) :
    ∃ c, (encodedVal v).head? = some c ∧ pyWS c = false := by
  cases v with
  | boolV b => cases b <;> exact ⟨_, rfl, by decide⟩
  | strV s =>
    obtain ⟨hne, hprint, _⟩ := hv
    rw [encodedVal_strV]
    by_cases hq : needsQuote s
    · rw [if_pos hq]; exact ⟨'"', rfl, by decide⟩
    · rw [if_neg hq]
      cases s with
      | nil => exact absurd rfl hne
      | cons c t =>
        refine ⟨c, rfl, pyWS_of_printable (hprint c (List.mem_cons_self _ _)) ?_⟩
        intro hc
        subst hc
        have : needsQuote (' ' :: t) = true := by
          simp [needsQuote]
        exact hq this

/-- The encoded value of a safe value ends with a non-whitespace
character. -/
theorem encodedVal_last {v : PyVal} (hv : safeVal v) :
    ∃ c, (encodedVal v).getLast? = some c ∧ pyWS c = false := by
  cases v with
  | boolV b => cases b <;> exact ⟨'e', by decide, by decide⟩
  | strV s =>
    obtain ⟨hne, hprint, _⟩ := hv
    rw [encodedVal_strV]
    by_cases hq : needsQuote s
    · rw [if_pos hq]
      refine ⟨'"', ?_, by decide⟩
      show (('"' :: s) ++ ['"']).getLast? = some '"'
      exact List.getLast?_concat _
    · rw [if_neg hq]
      cases hl : s.getLast? with
      | none => exact absurd (List.getLast?_eq_none_iff.mp hl) hne
      | some c =>
        have hcm : c ∈ s := List.mem_of_mem_getLast? hl
        refine ⟨c, rfl, pyWS_of_printable (hprint c hcm) ?_⟩
        intro hc
        subst hc
        have : needsQuote s = true := by
          simp only [needsQuote, List.any_eq_true]
          exact ⟨' ', hcm, by decide⟩
        exact hq this

/-! ### Parsing one encoded line -/

/-- A word-character key scans off the front of an encoded line. -/
theorem scan_word_key (k w : List Char) (hk : ∀ c ∈ k, isWordChar c = true) :
    (k ++ ':' :: w).takeWhile isWordChar = k ∧
    (k ++ ':' :: w).dropWhile isWordChar = ':' :: w := by
  have hcolon : isWordChar ':' = false := by decide
  induction k with
  | nil =>
    rw [List.nil_append]
    exact ⟨by simp [List.takeWhile_cons, hcolon],
      by simp [List.dropWhile_cons, hcolon]⟩
  | cons c k' ih =>
    have hc := hk c (List.mem_cons_self _ _)
    have hrest := ih fun x hx => hk x (List.mem_cons_of_mem _ hx)
    constructor
    · rw [List.cons_append]
      simp [List.takeWhile_cons, hc, hrest.1]
    · rw [List.cons_append]
      simp [List.dropWhile_cons, hc, hrest.2]

/-- The regex recovers key and raw value from an encoded line. -/
theorem matchKV_build (k : List Char) (v : PyVal) (hk : safeKey k)
    (hv : safeVal v) : matchKV (buildFMLine k v) = some (k, encodedVal v) := by
  obtain ⟨hkne, hkw⟩ := hk
  rw [buildFMLine_eq]
  have hscan := scan_word_key k (' ' :: encodedVal v) hkw
  have hkE : k.isEmpty = false := by
    cases k with
    | nil => exact absurd rfl hkne
    | cons _ _ => rfl
  obtain ⟨c0, hc0, hws0⟩ := encodedVal_head hv
  have h2 : (encodedVal v).dropWhile pyWS = encodedVal v := by
    have := lstripWS_of_head hc0 hws0
    unfold lstripWS at this
    exact this
  have h3 : (encodedVal v).isEmpty = false := by
    cases hE : encodedVal v with
    | nil => exact absurd hE (encodedVal_ne_nil hv)
    | cons _ _ => rfl
  have hcolonws : pyWS ':' = false := by decide
  have hspacews : pyWS ' ' = true := by decide
  unfold matchKV
  simp only [hscan.1, hscan.2, hkE, Bool.false_eq_true, if_false,
    List.dropWhile_cons, hcolonws, hspacews, if_true, h2, h3]

/-- A list with non-whitespace first and last characters strips to
itself. -/
theorem stripWS_of_ends {l : List Char} {c d : Char} (hh : l.head? = some c)
    (hc : pyWS c = false) (hl : l.getLast? = some d) (hd : pyWS d = false) :
    stripWS l = l := by
  unfold stripWS
  rw [lstripWS_of_head hh hc]
  exact rstripWS_of_last hl hd

/-- An encoded line starts with the key's first (word) character. -/
theorem buildFMLine_head (k : List Char) (v : PyVal) (hk : safeKey k) :
    ∃ c, (buildFMLine k v).head? = some c ∧ isWordChar c = true := by
  obtain ⟨hkne, hkw⟩ := hk
  rw [buildFMLine_eq]
  cases k with
  | nil => exact absurd rfl hkne
  | cons c k' => exact ⟨c, by simp, hkw c (List.mem_cons_self _ _)⟩

/-- An encoded line ends with the value's last (non-whitespace)
character. -/
theorem buildFMLine_last (k : List Char) (v : PyVal) (hv : safeVal v) :
    ∃ c, (buildFMLine k v).getLast? = some c ∧ pyWS c = false := by
  obtain ⟨c, hc, hw⟩ := encodedVal_last hv
  rw [buildFMLine_eq]
  refine ⟨c, ?_, hw⟩
  have htail : (':' :: ' ' :: encodedVal v).getLast? = some c := by
    show ([':', ' '] ++ encodedVal v).getLast? = some c
    rw [List.getLast?_append, hc]
    rfl
  rw [List.getLast?_append, htail]
  rfl

/-- The raw value strips to itself. -/
theorem stripWS_encodedVal (v : PyVal) (hv : safeVal v) :
    stripWS (encodedVal v) = encodedVal v := by
  obtain ⟨c0, hc0, hw0⟩ := encodedVal_head hv
  obtain ⟨c1, hc1, hw1⟩ := encodedVal_last hv
  exact stripWS_of_ends hc0 hw0 hc1 hw1

/-- Coercion undoes the encoding of a safe value. -/
theorem coerceVal_encoded (v : PyVal) (hv : safeVal v) :
    coerceVal (encodedVal v) = v := by
  cases v with
  | boolV b => cases b <;> decide
  | strV s =>
    obtain ⟨hne, hprint, hnt, hnf, hndash, hnq⟩ := hv
    rw [encodedVal_strV]
    by_cases hq : needsQuote s
    · rw [if_pos hq]
      have hlt : lowerChars ('"' :: s ++ ['"']) ≠ trueChars := by
        intro h
        rw [show lowerChars ('"' :: s ++ ['"'])
            = '"'.toLower :: lowerChars (s ++ ['"']) from rfl,
          show trueChars = 't' :: ['r', 'u', 'e'] from rfl] at h
        injection h with h1 _
        exact absurd h1 (by decide)
      have hlf : lowerChars ('"' :: s ++ ['"']) ≠ falseChars := by
        intro h
        rw [show lowerChars ('"' :: s ++ ['"'])
            = '"'.toLower :: lowerChars (s ++ ['"']) from rfl,
          show falseChars = 'f' :: ['a', 'l', 's', 'e'] from rfl] at h
        injection h with h1 _
        exact absurd h1 (by decide)
      have hhead : ('"' :: s ++ ['"']).head? = some '"' := rfl
      have hlast : ('"' :: s ++ ['"']).getLast? = some '"' := by
        show (('"' :: s) ++ ['"']).getLast? = some '"'
        exact List.getLast?_concat _
      have hdl : (('"' :: s ++ ['"']).drop 1).dropLast = s := by
        rw [show ('"' :: s ++ ['"']).drop 1 = s ++ ['"'] from rfl,
          List.dropLast_concat]
      unfold coerceVal
      rw [if_neg hlt, if_neg hlf, hhead, hlast, hdl]
      simp
    · rw [if_neg hq]
      have hhead : s.head? ≠ some '"' := by
        intro h
        cases s with
        | nil => simp at h
        | cons c t =>
          simp only [List.head?_cons, Option.some.injEq] at h
          subst h
          exact hq (by simp [needsQuote])
      have hsq : ¬ (s.head? = some '\'' ∧ s.getLast? = some '\'') := by
        intro hpair
        exact hnq ⟨by simpa using hq, hpair.1, hpair.2⟩
      unfold coerceVal
      rw [if_neg hnt, if_neg hnf, if_neg ?_, if_neg ?_]
      · intro h
        rw [Bool.and_eq_true] at h
        exact hsq ⟨of_decide_eq_true h.1, of_decide_eq_true h.2⟩
      · intro h
        rw [Bool.and_eq_true] at h
        exact hhead (of_decide_eq_true h.1)

/-- Processing an encoded line inserts exactly its key/value pair. -/
theorem procLine_build (k : List Char) (v : PyVal) (hk : safeKey k)
    (hv : safeVal v) (d : PyDict) :
    procLine d (buildFMLine k v) = dictInsert d k v := by
  obtain ⟨ch, hch, hchw⟩ := buildFMLine_head k v hk
  obtain ⟨cl, hcl, hclw⟩ := buildFMLine_last k v hv
  have hline : stripWS (buildFMLine k v) = buildFMLine k v :=
    stripWS_of_ends hch (pyWS_of_word hchw) hcl hclw
  have hE : (buildFMLine k v).isEmpty = false := by
    cases hb : buildFMLine k v with
    | nil => rw [hb] at hch; simp at hch
    | cons _ _ => rfl
  have hhash : ¬ ((buildFMLine k v).head? = some '#') := by
    rw [hch]
    intro h
    exact word_ne_hash hchw (by simpa using h)
  unfold procLine
  simp only [hline, hE, Bool.false_eq_true, if_false]
  rw [if_neg hhash, matchKV_build k v hk hv]
  show dictInsert d k (coerceVal (stripWS (encodedVal v))) = dictInsert d k v
  rw [stripWS_encodedVal v hv, coerceVal_encoded v hv]

/-! ### Reconstructing the whole block -/

/-- Encoded safe values are printable throughout. -/
theorem encodedVal_printable (v : PyVal) (hv : safeVal v) :
    ∀ c ∈ encodedVal v, printableChar c = true := by
  cases v with
  | boolV b => cases b <;> decide
  | strV s =>
    obtain ⟨_, hprint, _⟩ := hv
    rw [encodedVal_strV]
    by_cases hq : needsQuote s
    · rw [if_pos hq]
      intro c hc
      rcases List.mem_cons.mp hc with h | h
      · subst h; decide
      · rcases List.mem_append.mp h with h | h
        · exact hprint c h
        · rw [List.mem_singleton.mp h]; decide
    · rw [if_neg hq]
      exact hprint

/-- Encoded lines contain no line boundaries. -/
theorem buildFMLine_no_break (k : List Char) (v : PyVal) (hk : safeKey k)
    (hv : safeVal v) :
    '\n' ∉ buildFMLine k v ∧ '\r' ∉ buildFMLine k v := by
  rw [buildFMLine_eq]
  have hval := encodedVal_printable v hv
  constructor <;> intro hm <;> rcases List.mem_append.mp hm with h | h
  · exact absurd (hk.2 _ h) (by decide)
  · rcases List.mem_cons.mp h with h | h
    · exact absurd h.symm (by decide)
    · rcases List.mem_cons.mp h with h | h
      · exact absurd h.symm (by decide)
      · exact absurd (hval _ h) (by decide)
  · exact absurd (hk.2 _ h) (by decide)
  · rcases List.mem_cons.mp h with h | h
    · exact absurd h.symm (by decide)
    · rcases List.mem_cons.mp h with h | h
      · exact absurd h.symm (by decide)
      · exact absurd (hval _ h) (by decide)

/-- A join of non-empty lines is non-empty. -/
theorem joinNL_ne_nil : ∀ {X : List (List Char)}, X ≠ [] →
    (∀ l ∈ X, l ≠ []) → joinNL X ≠ [] := by
  intro X
  induction X with
  | nil => exact fun h _ => absurd rfl h
  | cons l X' _ =>
    intro _ hl
    cases X' with
    | nil => exact hl l (List.mem_cons_self _ _)
    | cons l₂ X'' =>
      rw [joinNL_cons_of_ne_nil l (l₂ :: X'') (by simp)]
      intro hj
      exact hl l (List.mem_cons_self _ _) (List.append_eq_nil.mp hj).1

/-- The head of a join is the first line's head. -/
theorem head?_joinNL (l : List Char) (X' : List (List Char)) (hne : l ≠ []) :
    (joinNL (l :: X')).head? = l.head? := by
  cases X' with
  | nil => rfl
  | cons l₂ X'' =>
    rw [joinNL_cons_of_ne_nil l (l₂ :: X'') (by simp), List.head?_append]
    cases hl : l.head? with
    | none => exact absurd (List.head?_eq_none_iff.mp hl) hne
    | some c => rfl

/-- The last character of a join of lines that end in non-whitespace. -/
theorem getLast?_joinNL : ∀ (X : List (List Char)), X ≠ [] →
    (∀ l ∈ X, ∃ c, l.getLast? = some c ∧ pyWS c = false) →
    ∃ c, (joinNL X).getLast? = some c ∧ pyWS c = false := by
  intro X
  induction X with
  | nil => exact fun h _ => absurd rfl h
  | cons l X' ih =>
    intro _ hl
    cases X' with
    | nil => exact hl l (List.mem_cons_self _ _)
    | cons l₂ X'' =>
      obtain ⟨c, hc, hw⟩ :=
        ih (by simp) fun x hx => hl x (List.mem_cons_of_mem _ hx)
      rw [joinNL_cons_of_ne_nil l (l₂ :: X'') (by simp)]
      refine ⟨c, ?_, hw⟩
      rw [List.getLast?_append]
      have : ('\n' :: joinNL (l₂ :: X'')).getLast? = some c := by
        show (['\n'] ++ joinNL (l₂ :: X'')).getLast? = some c
        rw [List.getLast?_append, hc]
        rfl
      rw [this]
      rfl

/-- Inserting an absent key appends it. -/
theorem dictInsert_not_mem : ∀ (d : PyDict) (k : List Char) (v : PyVal),
    k ∉ d.map Prod.fst → dictInsert d k v = d ++ [(k, v)] := by
  intro d
  induction d with
  | nil => intro k v _; rfl
  | cons kv rest ih =>
    intro k v h
    obtain ⟨k', v'⟩ := kv
    rw [List.map_cons, List.mem_cons] at h
    push_neg at h
    simp only [dictInsert]
    rw [if_neg fun hh => h.1 hh.symm, ih k v h.2]
    rfl

/-- Folding the parser's line processor over the encoded lines of a safe
map appends exactly that map. -/
theorem foldl_procLine_lines : ∀ (m : PyDict) (d : PyDict),
    (∀ kv ∈ m, safeKey kv.1 ∧ safeVal kv.2) →
    (m.map Prod.fst).Nodup →
    (∀ k ∈ m.map Prod.fst, k ∉ d.map Prod.fst) →
    (m.map fun kv => buildFMLine kv.1 kv.2).foldl procLine d = d ++ m := by
  intro m
  induction m with
  | nil => intro d _ _ _; simp
  | cons kv m' ih =>
    intro d hsafe hnd hdisj
    obtain ⟨k, v⟩ := kv
    obtain ⟨hk, hv⟩ := hsafe (k, v) (List.mem_cons_self _ _)
    rw [List.map_cons, List.foldl_cons, procLine_build k v hk hv d,
      dictInsert_not_mem d k v
        (hdisj k (List.mem_map.mpr ⟨(k, v), List.mem_cons_self _ _, rfl⟩))]
    rw [List.map_cons] at hnd
    have hknotm : k ∉ m'.map Prod.fst := (List.nodup_cons.mp hnd).1
    rw [ih (d ++ [(k, v)])
      (fun x hx => hsafe x (List.mem_cons_of_mem _ hx))
      (List.nodup_cons.mp hnd).2
      (by
        intro k' hk'
        rw [List.map_append]
        intro hmem
        rcases List.mem_append.mp hmem with h | h
        · exact hdisj k' (List.mem_cons_of_mem _ hk') h
        · rw [List.map_cons, List.map_nil, List.mem_singleton] at h
          subst h
          exact hknotm hk')]
    simp

/-- Stripping the inner slice between the delimiters recovers the joined
lines. -/
theorem stripWS_block (X : List (List Char))
    (hne : ∀ l ∈ X, l ≠ [])
    (hhead : ∀ l ∈ X, ∃ c, l.head? = some c ∧ pyWS c = false)
    (hlast : ∀ l ∈ X, ∃ c, l.getLast? = some c ∧ pyWS c = false) :
    stripWS (X.foldr (fun l acc => '\n' :: (l ++ acc)) [] ++ ['\n'])
      = joinNL X := by
  cases X with
  | nil => decide
  | cons l X' =>
    rw [blockFold_eq_joinNL (by simp), List.cons_append]
    obtain ⟨c, hc, hw⟩ := hhead l (List.mem_cons_self _ _)
    have hJhead : (joinNL (l :: X') ++ ['\n']).head? = some c := by
      rw [List.head?_append, head?_joinNL l X' (hne l (List.mem_cons_self _ _)),
        hc]
      rfl
    unfold stripWS
    rw [lstripWS_cons_ws (by decide), lstripWS_of_head hJhead hw,
      rstripWS_append_ws (by decide)]
    obtain ⟨d, hd, hdw⟩ :=
      getLast?_joinNL (l :: X') (by simp) hlast
    exact rstripWS_of_last hd hdw

/-- Claim C5, amended: the encoder/parser pair round-trips —
`parse(build(m) + body) = (m, body)` — for every metadata map `m` with
distinct non-empty word-character keys whose values are booleans or safe
strings (non-empty printable ASCII, not a boolean literal, no embedded
`---`, not an unquoted single-quote-wrapped value), and every body that does
not start with a newline. -/
theorem frontmatter_round_trip (m : PyDict) (body : List Char)
    (hm : safeMeta m) (hbody : body.head? ≠ some '\n') :
    parse_frontmatter (build_frontmatter m ++ body) = (m, body) := by
  obtain ⟨hnd, hsafe⟩ := hm
  set X := m.map fun kv => buildFMLine kv.1 kv.2 with hX
  set P := X.foldr (fun l acc => '\n' :: (l ++ acc)) [] with hP
  set S := (X.map fun l => l.length + 1).sum with hS
  have hmem : ∀ l ∈ X, ∃ kv, kv ∈ m ∧ l = buildFMLine kv.1 kv.2 := by
    intro l hl
    rw [hX] at hl
    obtain ⟨kv, hkv, he⟩ := List.mem_map.mp hl
    exact ⟨kv, hkv, he.symm⟩
  have hlines_nt : ∀ l ∈ X, noTripleB l = true := by
    intro l hl
    obtain ⟨kv, hkv, rfl⟩ := hmem l hl
    exact buildFMLine_noTriple (hsafe kv hkv).1.2
      (delimFree_of_safe (hsafe kv hkv).2)
  have hlines_h : ∀ l ∈ X, ∃ c, l.head? = some c ∧ pyWS c = false := by
    intro l hl
    obtain ⟨kv, hkv, rfl⟩ := hmem l hl
    obtain ⟨c, hc, hw⟩ := buildFMLine_head kv.1 kv.2 (hsafe kv hkv).1
    exact ⟨c, hc, pyWS_of_word hw⟩
  have hlines_l : ∀ l ∈ X, ∃ c, l.getLast? = some c ∧ pyWS c = false := by
    intro l hl
    obtain ⟨kv, hkv, rfl⟩ := hmem l hl
    exact buildFMLine_last kv.1 kv.2 (hsafe kv hkv).2
  have hlines_ne : ∀ l ∈ X, l ≠ [] := by
    intro l hl
    obtain ⟨c, hc, _⟩ := hlines_h l hl
    intro he
    rw [he] at hc
    exact absurd hc (by simp)
  have hlines_nb : ∀ l ∈ X, '\n' ∉ l ∧ '\r' ∉ l := by
    intro l hl
    obtain ⟨kv, hkv, rfl⟩ := hmem l hl
    exact buildFMLine_no_break kv.1 kv.2 (hsafe kv hkv).1 (hsafe kv hkv).2
  have htext : build_frontmatter m ++ body
      = dashes ++ (P ++ ('\n' :: (dashes ++ body))) := by
    rw [build_frontmatter_decomp, ← hX, List.append_assoc, List.cons_append,
      joinNL_block, blockFold_append, hP]
  have hPlen : P.length = S := by
    rw [hP, hS]
    exact blockFold_length X
  have hpre : dashes.isPrefixOf (build_frontmatter m ++ body) = true := by
    rw [htext]
    exact isPrefixOf_self_append _ _
  have hfind : findSubFrom (build_frontmatter m ++ body) dashes 3
      = some (S + 1 + 3) := by
    unfold findSubFrom
    rw [htext, show (3 : Nat) = dashes.length from rfl, List.drop_left,
      ← blockFold_append, findSub_block body X hlines_nt, ← hS]
    rfl
  have htake : ((build_frontmatter m ++ body).take (S + 1 + 3)).drop 3
      = P ++ ['\n'] := by
    rw [htext]
    have h1 : S + 1 + 3 = dashes.length + (P.length + 1) := by
      have h3 : dashes.length = 3 := rfl
      omega
    rw [h1, List.take_append, List.take_append 1,
      show List.take 1 ('\n' :: (dashes ++ body)) = ['\n'] from rfl,
      show (3 : Nat) = dashes.length from rfl, List.drop_left]
  have hdrop : (build_frontmatter m ++ body).drop (S + 1 + 3 + 3) = body := by
    rw [htext]
    have h1 : S + 1 + 3 + 3 = dashes.length + (P.length + (3 + 1)) := by
      have h3 : dashes.length = 3 := rfl
      omega
    rw [h1, List.drop_append, List.drop_append (3 + 1),
      List.drop_succ_cons,
      show (3 : Nat) = dashes.length from rfl, List.drop_left]
  have hstripNL : lstripNL body = body := by
    cases body with
    | nil => rfl
    | cons c t =>
      have hc : ¬ (c = '\n') := by
        intro h
        subst h
        exact hbody rfl
      unfold lstripNL
      rw [List.dropWhile_cons, if_neg (by simpa using hc)]
  unfold parse_frontmatter
  rw [if_neg (not_not_intro hpre), hfind]
  show ((splitlines (stripWS (((build_frontmatter m ++ body).take
      (S + 1 + 3)).drop 3))).foldl procLine [],
    lstripNL ((build_frontmatter m ++ body).drop (S + 1 + 3 + 3))) = (m, body)
  rw [htake, hdrop, hstripNL, hP,
    stripWS_block X hlines_ne hlines_h hlines_l,
    splitlines_joinNL X fun l hl =>
      ⟨hlines_ne l hl, (hlines_nb l hl).1, (hlines_nb l hl).2⟩,
    hX, foldl_procLine_lines m [] hsafe hnd fun k _ hk => List.not_mem_nil k hk]
  rw [List.nil_append]

/-- Claim C5, counterexample.  For the empty metadata map and the body
`"\nx"`, the parser strips the body's leading newline (`lstrip("\n")` after
the closing delimiter), so the round trip returns `({}, "x")`, not
`({}, "\nx")` — refuting the claim as stated for arbitrary bodies.  (String
values such as `"true"`, which re-parse as booleans, break it as well.) -/
theorem frontmatter_round_trip_counterexample :
    parse_frontmatter (build_frontmatter [] ++ '\n' :: ['x']) = ([], ['x']) ∧
    parse_frontmatter (build_frontmatter [] ++ '\n' :: ['x'])
      ≠ ([], '\n' :: ['x']) := by
  decide

/-- Claim C5, witness for the amended round trip at a concrete map and
body. -/
theorem frontmatter_round_trip_witness :
    parse_frontmatter (build_frontmatter
        [(['a'], .boolV true), (['d'], .strV ['x', ' ', 'y'])]
      ++ 'B' :: ['o'])
      = ([(['a'], .boolV true), (['d'], .strV ['x', ' ', 'y'])],
         'B' :: ['o']) :=
  frontmatter_round_trip
    [(['a'], .boolV true), (['d'], .strV ['x', ' ', 'y'])] ('B' :: ['o'])
    ⟨by decide, by decide⟩ (by decide)

/-- Parsing encoder output with any trailing text recovers the trailing
text (modulo leading newlines) as the body, provided the metadata's keys are
word characters and its values contain no `---`. -/
theorem parse_build_body (m : PyDict) (body : List Char)
    (hm : ∀ kv ∈ m, (∀ c ∈ kv.1, isWordChar c = true) ∧ delimFreeVal kv.2) :
    (parse_frontmatter (build_frontmatter m ++ body)).2 = lstripNL body := by
  set X := m.map fun kv => buildFMLine kv.1 kv.2 with hX
  set P := X.foldr (fun l acc => '\n' :: (l ++ acc)) [] with hP
  set S := (X.map fun l => l.length + 1).sum with hS
  have hlines_nt : ∀ l ∈ X, noTripleB l = true := by
    intro l hl
    rw [hX] at hl
    obtain ⟨kv, hkv, he⟩ := List.mem_map.mp hl
    rw [← he]
    exact buildFMLine_noTriple (hm kv hkv).1 (hm kv hkv).2
  have htext : build_frontmatter m ++ body
      = dashes ++ (P ++ ('\n' :: (dashes ++ body))) := by
    rw [build_frontmatter_decomp, ← hX, List.append_assoc, List.cons_append,
      joinNL_block, blockFold_append, hP]
  have hPlen : P.length = S := by
    rw [hP, hS]
    exact blockFold_length X
  have hpre : dashes.isPrefixOf (build_frontmatter m ++ body) = true := by
    rw [htext]
    exact isPrefixOf_self_append _ _
  have hfind : findSubFrom (build_frontmatter m ++ body) dashes 3
      = some (S + 1 + 3) := by
    unfold findSubFrom
    rw [htext, show (3 : Nat) = dashes.length from rfl, List.drop_left,
      ← blockFold_append, findSub_block body X hlines_nt, ← hS]
    rfl
  have hdrop : (build_frontmatter m ++ body).drop (S + 1 + 3 + 3) = body := by
    rw [htext]
    have h1 : S + 1 + 3 + 3 = dashes.length + (P.length + (3 + 1)) := by
      have h3 : dashes.length = 3 := rfl
      omega
    rw [h1, List.drop_append, List.drop_append (3 + 1),
      List.drop_succ_cons,
      show (3 : Nat) = dashes.length from rfl, List.drop_left]
  unfold parse_frontmatter
  rw [if_neg (not_not_intro hpre), hfind]
  show lstripNL ((build_frontmatter m ++ body).drop (S + 1 + 3 + 3))
    = lstripNL body
  rw [hdrop]

/-- `lstrip("\n")` stops at a non-newline head. -/
theorem lstripNL_of_head {l : List Char} {c : Char} (h : l.head? = some c)
    (hc : c ≠ '\n') : lstripNL l = l := by
  cases l with
  | nil => rfl
  | cons a t =>
    simp only [List.head?_cons, Option.some.injEq] at h
    subst h
    unfold lstripNL
    rw [List.dropWhile_cons, if_neg (by simpa using hc)]

/-- Every engine artifact headed by the sentinel block passes the
generated-file check. -/
theorem is_generated_header_append (ts X : List Char) :
    is_generated_file (generated_header ts ++ X) = true := by
  have hh : (generated_header ts ++ X).head? = some '#' := by
    unfold generated_header
    rw [List.append_assoc, List.head?_append]
    rfl
  unfold is_generated_file
  rw [show lstripWS (generated_header ts ++ X) = generated_header ts ++ X
      from lstripWS_of_head hh (by decide)]
  unfold generated_header
  rw [List.append_assoc]
  exact isPrefixOf_self_append _ _

/-- The cursor artifact decomposes as encoder output plus a suffix. -/
theorem gen_cursor_file_decomp (meta : PyDict) (ts content : List Char) :
    gen_cursor_file meta ts content
      = build_frontmatter meta
          ++ ('\n' :: '\n' :: (generated_header ts ++ '\n' :: content)) := by
  have hfm : (if meta.isEmpty then dashes ++ '\n' :: dashes
      else build_frontmatter meta) = build_frontmatter meta := by
    cases meta with
    | nil => rfl
    | cons kv rest => rfl
  show (if meta.isEmpty then dashes ++ '\n' :: dashes
      else build_frontmatter meta)
        ++ '\n' :: '\n' :: generated_header ts ++ '\n' :: content = _
  rw [hfm]
  simp [List.append_assoc]

/-- Claim C8, amended: every artifact the engine writes begins with the
generated-sentinel block (after the artifact's own metadata block, if any),
and for every manifest and rule metadata *whose string values do not contain
the delimiter `---`*, a file produced by a consumer's generator is skipped by
that consumer's importer: the cursor importer skips the per-rule artifact,
and the whole-text sentinel check skips the codex, concatenated-file and
AGENTS.md artifacts. -/
theorem generated_artifacts_skipped (meta : PyDict)
    (ts content header preamble : List Char)
    (rules : List (String × List Char)) (bodies : List (List Char))
    (entries : List (List Char × List Char))
    (hmeta : ∀ kv ∈ meta, (∀ c ∈ kv.1, isWordChar c = true) ∧
      delimFreeVal kv.2) :
    import_cursor_skips (gen_cursor_file meta ts content) = true ∧
    single_file_import_skips (gen_codex_content ts rules) = true ∧
    single_file_import_skips (gen_concat_content ts bodies) = true ∧
    is_generated_file (gen_agents_md_content ts header preamble entries)
      = true := by
  refine ⟨?_, ?_, ?_, ?_⟩
  · unfold import_cursor_skips
    rw [gen_cursor_file_decomp, parse_build_body meta _ hmeta]
    rw [show lstripNL ('\n' :: '\n' :: (generated_header ts ++ '\n' :: content))
        = lstripNL (generated_header ts ++ '\n' :: content) from rfl]
    rw [lstripNL_of_head (by
        rw [List.head?_append]
        rfl) (by decide)]
    exact is_generated_header_append ts ('\n' :: content)
  · unfold single_file_import_skips gen_codex_content
    rw [joinNL_cons_of_ne_nil (generated_header ts) ([] :: codexParts rules)
      (by simp)]
    exact is_generated_header_append ts _
  · unfold single_file_import_skips gen_concat_content
    rw [joinNL_cons_of_ne_nil (generated_header ts) ([] :: concatParts bodies)
      (by simp)]
    exact is_generated_header_append ts _
  · unfold gen_agents_md_content
    rw [joinNL_cons_of_ne_nil (generated_header ts) _ (by simp)]
    exact is_generated_header_append ts _

/-- Claim C8, counterexample.  A rule whose cursor `description` contains
`---` produces a `.mdc` artifact whose frontmatter the importer mis-parses
(the embedded `---` is taken as the closing delimiter), so the parsed body is
not sentinel-marked and the importer re-imports the engine's own output —
refuting the claim for arbitrary metadata. -/
theorem generated_artifacts_skipped_counterexample :
    import_cursor_skips
      (gen_cursor_file
        [(("description").data, .strV ('a' :: ' ' :: dashes ++ [' ', 'b']))]
        ['T'] ['c']) = false := by
  decide

/-- Claim C8, witness at concrete delimiter-free metadata and contents. -/
theorem generated_artifacts_skipped_witness :
    import_cursor_skips
      (gen_cursor_file [(("description").data, .strV ['x', ' ', 'y'])]
        ['T'] ['c']) = true ∧
    single_file_import_skips (gen_codex_content ['T'] [("r", ['b'])]) = true := by
  have h := generated_artifacts_skipped
    [(("description").data, .strV ['x', ' ', 'y'])]
    ['T'] ['c'] ['h'] ['p'] [("r", ['b'])] [['b']] [(['r'], ['s'])]
    (by decide)
  exact ⟨h.1, h.2.1⟩

end SyncAgentRules
